import Mathlib

/-!
Verification of the retrieval/ranking core of the RAG chatbot repository.

Strings from the TypeScript source are modelled as `List Char`; JS numbers
are idealized as real numbers (`ℝ`), with the one non-finite value that can
actually arise (`NaN` from a zero denominator) modelled explicitly through
`Option`.  Every definition is translated from the repository's source files
(`src/lib/document-processor.ts`, `src/lib/vector-store.ts`,
`src/lib/rag-service.ts`, `src/lib/openai-client.ts`, and the upload route's
`normalizeExtractedText`).
-/

namespace RAG

/-- The set of characters treated as whitespace by JavaScript's `String.trim`
and by the regex class `\s` (ECMAScript WhiteSpace ∪ LineTerminator), given
by code point: space, tab, LF, VT, FF, CR, NBSP, Ogham space, the U+2000
block, LS, PS, NNBSP, MMSP, ideographic space, and the BOM. -/
def isJsWs (c : Char) : Bool :=
  let n := c.toNat
  n = 0x20 ∨ n = 0x09 ∨ n = 0x0A ∨ n = 0x0B ∨ n = 0x0C ∨ n = 0x0D ∨
  n = 0xA0 ∨ n = 0x1680 ∨ (0x2000 ≤ n ∧ n ≤ 0x200A) ∨
  n = 0x2028 ∨ n = 0x2029 ∨ n = 0x202F ∨ n = 0x205F ∨ n = 0x3000 ∨ n = 0xFEFF

/-- JavaScript `String.prototype.trim`: drop leading and trailing whitespace. -/
def jsTrim (l : List Char) : List Char :=
  ((l.dropWhile isJsWs).reverse.dropWhile isJsWs).reverse

/-- The regex character class `[A-Za-z]`. -/
def isAsciiLetter (c : Char) : Bool :=
  ('A' ≤ c ∧ c ≤ 'Z') ∨ ('a' ≤ c ∧ c ≤ 'z')

theorem length_dropWhile_le (p : α → Bool) (l : List α) :
    (l.dropWhile p).length ≤ l.length :=
  (List.dropWhile_suffix p).sublist.length_le

/-! ### Chunker (`DocumentProcessor.chunkText`, src/lib/document-processor.ts)

`chunkText` is a `while (start < text.length)` loop.  We embed it as a
fuel-indexed loop: `chunkLoop text size overlap start fuel` returns `none`
exactly when `fuel` iterations do not suffice to reach the end of the text,
so the JS loop diverges from cursor `start` iff the result is `none` for
every fuel. -/

/-- Helper for `lastIndexOf`: best match index in `l`, counting from `i`. -/
def lastIndexOfFrom (c : Char) : List Char → Nat → Int
  | [], _ => -1
  | x :: xs, i => max (if x = c then (i : Int) else -1) (lastIndexOfFrom c xs (i + 1))

/-- JavaScript `String.prototype.lastIndexOf` for a single character:
the greatest index holding `c`, or `-1` when there is none. -/
def lastIndexOf (l : List Char) (c : Char) : Int :=
  lastIndexOfFrom c l 0

/-- One window of `chunkText`, with the source's break-point search.
`text.slice(start, end)` is `(text.drop start).take (e - start)`; the float
comparison `breakPointRel > chunk.length * 0.5` is the exact rational
comparison `2 * bp > chunk.length` (halving an integer is exact in doubles).
`Math.max(0, x - overlap)` on naturals is Lean's truncated subtraction. -/
def chunkLoop (text : List Char) (size overlap : Nat) :
    Nat → Nat → Option (List (List Char))
  | _, 0 => none
  | start, fuel + 1 =>
    if start < text.length then
      let e := min (start + size) text.length
      let chunk := (text.drop start).take (e - start)
      if e < text.length then
        let bp : Int := max (lastIndexOf chunk '.')
          (max (lastIndexOf chunk '\n') (lastIndexOf chunk ' '))
        if 2 * bp > (chunk.length : Int) then
          (chunkLoop text size overlap (start + bp.toNat + 1 - overlap) fuel).map
            (jsTrim (chunk.take (bp.toNat + 1)) :: ·)
        else
          (chunkLoop text size overlap (e - overlap) fuel).map (jsTrim chunk :: ·)
      else
        some [jsTrim chunk]
    else
      some []

/-- `chunkText(text, size, overlap)` reaches its `return` iff some finite
number of loop iterations reaches the end of the text. -/
def chunkTerminates (text : List Char) (size overlap : Nat) : Prop :=
  ∃ fuel, (chunkLoop text size overlap 0 fuel).isSome

/-- The list returned by `chunkText` (meaningful when the loop terminates):
trimmed chunks with the empty ones filtered out. -/
def chunkText (text : List Char) (size overlap : Nat) : Option (List (List Char)) :=
  (chunkLoop text size overlap 0 (text.length + 1)).map (·.filter (· ≠ []))

/-- On the text `"aaaa"` with `chunkSize = 2` and `overlap = 2`, one loop
iteration of `chunkText` leaves the cursor at `0`: `Math.max(0, end - overlap)`
clamps to a non-negative cursor but forces no progress, so no amount of fuel
completes the loop. -/
theorem chunkLoop_stall (fuel : Nat) :
    chunkLoop ['a', 'a', 'a', 'a'] 2 2 0 fuel = none := by
  induction fuel with
  | zero => rfl
  | succ n ih =>
    have step : chunkLoop ['a', 'a', 'a', 'a'] 2 2 0 (n + 1)
        = (chunkLoop ['a', 'a', 'a', 'a'] 2 2 0 n).map (jsTrim ['a', 'a'] :: ·) := rfl
    rw [step, ih]
    rfl

/-- Every loop iteration advances the cursor by at least one when
`overlap < size` and `2 * overlap ≤ size + 2`, so `text.length - start`
bounds the remaining iterations. -/
theorem chunkLoop_isSome (text : List Char) (size overlap : Nat)
    (h1 : overlap < size) (h2 : 2 * overlap ≤ size + 2) :
    ∀ fuel start, text.length - start < fuel →
      (chunkLoop text size overlap start fuel).isSome := by
  intro fuel
  induction fuel with
  | zero => intro start h; omega
  | succ n ih =>
    intro start hstart
    by_cases hs : start < text.length
    · have he : min (start + size) text.length ≤ text.length := min_le_right _ _
      have hchunklen :
          ((text.drop start).take (min (start + size) text.length - start)).length
            = min (start + size) text.length - start := by
        simp [List.length_take, List.length_drop]
        omega
      by_cases hee : min (start + size) text.length < text.length
      · have hesz : min (start + size) text.length = start + size := by omega
        set chunk := (text.drop start).take (min (start + size) text.length - start)
          with hchunk
        set bp : Int := max (lastIndexOf chunk '.')
          (max (lastIndexOf chunk '\n') (lastIndexOf chunk ' ')) with hbp
        by_cases hcond : 2 * bp > (chunk.length : Int)
        · have hbpnn : 0 ≤ bp := by
            by_contra hneg
            push_neg at hneg
            have : (0 : Int) ≤ (chunk.length : Int) := Int.natCast_nonneg _
            omega
          have hbpsz : size + 1 ≤ 2 * bp.toNat := by
            have := Int.toNat_of_nonneg hbpnn
            have hcl : (chunk.length : Int) = (size : Int) := by
              rw [hchunklen]; omega
            omega
          have hadv : start + 1 ≤ start + bp.toNat + 1 - overlap := by omega
          have := ih (start + bp.toNat + 1 - overlap) (by omega)
          simp only [chunkLoop, if_pos hs, if_pos hee, if_pos hcond]
          simpa using this
        · have := ih (min (start + size) text.length - overlap) (by omega)
          simp only [chunkLoop, if_pos hs, if_pos hee, if_neg hcond]
          simpa using this
      · simp only [chunkLoop, if_pos hs, if_neg hee]
        rfl
    · simp only [chunkLoop, if_neg hs]
      rfl

/-- C1, counterexample: as stated the claim is false — with `overlap ≥ size`
the cursor clamp does not guarantee termination.  On input text `"aaaa"`,
`size = 2`, `overlap = 2`, every iteration re-enters the loop with cursor `0`
(the window `"aa"` has no break characters, so the cursor becomes
`max(0, 2 - 2) = 0`), and `chunkText` never returns. -/
theorem chunkText_stalls_on_overlap_eq_size :
    ¬ chunkTerminates ['a', 'a', 'a', 'a'] 2 2 := by
  rintro ⟨fuel, h⟩
  rw [chunkLoop_stall] at h
  simp at h

/-- C1 (amended): `chunkText(text, size, overlap)` terminates and returns a
finite list for every text whenever `overlap < size` and
`2 * overlap ≤ size + 2` (both break-point and full-window advancement are
then at least one character per iteration); in particular this covers the
defaults `size = 1000, overlap = 200` and every call site in the repository.
The clamp `Math.max(0, …)` only keeps the cursor non-negative; when
`overlap ≥ size` the loop can stall forever. -/
theorem chunkText_terminates_of_small_overlap (text : List Char)
    (size overlap : Nat) (h1 : overlap < size) (h2 : 2 * overlap ≤ size + 2) :
    chunkTerminates text size overlap ∧ (chunkText text size overlap).isSome := by
  refine ⟨⟨text.length + 1, ?_⟩, ?_⟩
  · exact chunkLoop_isSome text size overlap h1 h2 _ 0 (by omega)
  · have := chunkLoop_isSome text size overlap h1 h2 (text.length + 1) 0 (by omega)
    simpa [chunkText] using this

/-- C1, witness: the amended termination theorem instantiated at
`text = "ab"`, `size = 2`, `overlap = 0`. -/
theorem chunkText_terminates_witness :
    chunkTerminates ['a', 'b'] 2 0 ∧ (chunkText ['a', 'b'] 2 0).isSome :=
  chunkText_terminates_of_small_overlap ['a', 'b'] 2 0 (by decide) (by decide)

/-! ### Cosine similarity (src/lib/vector-store.ts and src/lib/rag-service.ts)

Both copies first return `0` on a length mismatch, then run the same
dot-product/norm loop.  The loop over `i < a.length` with equal lengths is
`zipWith`.  JS division is total on doubles but yields the non-finite `NaN`
for `0/0`; we idealize doubles as reals and model a zero denominator
explicitly (`jsDiv`).  The rag-service copy guards each factor with `|| 1`
(`orOne`), so its denominator is never zero. -/

/-- The loop accumulator `dotProduct` for equal-length vectors. -/
def dot (a b : List ℝ) : ℝ := (List.zipWith (· * ·) a b).sum

/-- The loop accumulator `normA` (and `normB`): sum of squared entries. -/
def normSq (a : List ℝ) : ℝ := (a.map (fun x => x * x)).sum

/-- JS division with the non-finite outcome of a zero denominator (`NaN` or
`±Infinity`) modelled as `none`. -/
noncomputable def jsDiv (x y : ℝ) : Option ℝ :=
  if y = 0 then none else some (x / y)

/-- JS `x || 1` for a non-negative double: `0` is falsy and becomes `1`. -/
noncomputable def orOne (x : ℝ) : ℝ := if x = 0 then 1 else x

/-- `VectorStore.cosineSimilarity` (src/lib/vector-store.ts, lines 27-41). -/
noncomputable def vsCosineSimilarity (a b : List ℝ) : Option ℝ :=
  if a.length ≠ b.length then some 0
  else jsDiv (dot a b) (Real.sqrt (normSq a) * Real.sqrt (normSq b))

/-- `RAGService.cosineSimilarity` (src/lib/rag-service.ts, lines 176-187):
the denominator `(Math.sqrt(na) || 1) * (Math.sqrt(nb) || 1)` is provably
positive, so plain real division is a faithful model. -/
noncomputable def ragCosineSimilarity (a b : List ℝ) : ℝ :=
  if a.length ≠ b.length then 0
  else dot a b / (orOne (Real.sqrt (normSq a)) * orOne (Real.sqrt (normSq b)))

theorem normSq_nonneg (a : List ℝ) : 0 ≤ normSq a := by
  induction a with
  | nil => simp [normSq]
  | cons x xs ih =>
    have := mul_self_nonneg x
    simp only [normSq, List.map_cons, List.sum_cons]
    have ih' : (0 : ℝ) ≤ (xs.map (fun x => x * x)).sum := ih
    linarith

theorem dot_eq_zero_of_normSq_eq_zero (a b : List ℝ) (h : normSq a = 0) :
    dot a b = 0 := by
  induction a generalizing b with
  | nil => simp [dot]
  | cons x xs ih =>
    have hx2 : 0 ≤ x * x := mul_self_nonneg x
    have hxs : (0 : ℝ) ≤ normSq xs := normSq_nonneg xs
    have hsum : x * x + normSq xs = 0 := by
      simpa [normSq] using h
    have hx : x = 0 := by nlinarith
    have hxs0 : normSq xs = 0 := by nlinarith
    cases b with
    | nil => simp [dot]
    | cons y ys =>
      have hys := ih ys hxs0
      simp only [dot] at hys ⊢
      simp [hx, hys]

theorem dot_comm (a b : List ℝ) : dot a b = dot b a := by
  unfold dot
  rw [List.zipWith_comm_of_comm]
  intro x y
  exact mul_comm x y

theorem orOne_pos {x : ℝ} (hx : 0 ≤ x) : 0 < orOne x := by
  unfold orOne
  split
  · norm_num
  · rename_i h
    exact lt_of_le_of_ne hx (Ne.symm h)

/-- C3, counterexample: `VectorStore.cosineSimilarity` applied to two
zero-length (hence zero-norm, equal-length) vectors divides `0` by
`√0 · √0 = 0` and yields `NaN`, not the claimed `0`. -/
theorem vsCosineSimilarity_nil_is_nan :
    vsCosineSimilarity ([] : List ℝ) [] = none ∧
      vsCosineSimilarity ([] : List ℝ) [] ≠ some 0 := by
  constructor
  · simp [vsCosineSimilarity, jsDiv, dot, normSq]
  · simp [vsCosineSimilarity, jsDiv, dot, normSq]

/-- C3 (amended): both cosine-similarity copies are total and return `0` on a
length mismatch, and return `dot(a,b)/(|a|·|b|)` when both norms are nonzero;
but on equal-length input with a zero-norm vector only the rag-service copy
(whose `|| 1` guard keeps the denominator positive) returns exactly `0` — the
vector-store copy produces `NaN` (modelled `none`) exactly when the lengths
match and either norm is zero. -/
theorem cosineSimilarity_cases (a b : List ℝ) :
    (a.length ≠ b.length →
      vsCosineSimilarity a b = some 0 ∧ ragCosineSimilarity a b = 0) ∧
    (a.length = b.length →
      (vsCosineSimilarity a b = none ↔ normSq a = 0 ∨ normSq b = 0)) ∧
    (a.length = b.length → normSq a ≠ 0 → normSq b ≠ 0 →
      vsCosineSimilarity a b
          = some (dot a b / (Real.sqrt (normSq a) * Real.sqrt (normSq b))) ∧
      ragCosineSimilarity a b
          = dot a b / (Real.sqrt (normSq a) * Real.sqrt (normSq b))) ∧
    (normSq a = 0 ∨ normSq b = 0 → ragCosineSimilarity a b = 0) := by
  have hs0 : ∀ v : List ℝ, Real.sqrt (normSq v) = 0 ↔ normSq v = 0 := by
    intro v
    rw [Real.sqrt_eq_zero']
    exact ⟨fun hle => le_antisymm hle (normSq_nonneg v), fun h0 => le_of_eq h0⟩
  refine ⟨?_, ?_, ?_, ?_⟩
  · intro h
    simp [vsCosineSimilarity, ragCosineSimilarity, h]
  · intro h
    have hrw : vsCosineSimilarity a b
        = jsDiv (dot a b) (Real.sqrt (normSq a) * Real.sqrt (normSq b)) := by
      simp [vsCosineSimilarity, h]
    rw [hrw, jsDiv]
    by_cases hz : Real.sqrt (normSq a) * Real.sqrt (normSq b) = 0
    · rw [if_pos hz]
      refine ⟨fun _ => ?_, fun _ => rfl⟩
      rcases mul_eq_zero.mp hz with hza | hzb
      · exact Or.inl ((hs0 a).mp hza)
      · exact Or.inr ((hs0 b).mp hzb)
    · rw [if_neg hz]
      constructor
      · intro hc
        exact absurd hc (by simp)
      · intro hzz
        exfalso
        apply hz
        rcases hzz with hza | hzb
        · rw [(hs0 a).mpr hza, zero_mul]
        · rw [(hs0 b).mpr hzb, mul_zero]
  · intro h ha hb
    have hsa : Real.sqrt (normSq a) ≠ 0 := fun hc => ha ((hs0 a).mp hc)
    have hsb : Real.sqrt (normSq b) ≠ 0 := fun hc => hb ((hs0 b).mp hc)
    constructor
    · simp [vsCosineSimilarity, h, jsDiv, mul_eq_zero, hsa, hsb]
    · simp [ragCosineSimilarity, h, orOne, hsa, hsb]
  · intro hz
    by_cases h : a.length = b.length
    · have hdot : dot a b = 0 := by
        rcases hz with hza | hzb
        · exact dot_eq_zero_of_normSq_eq_zero a b hza
        · rw [dot_comm]
          exact dot_eq_zero_of_normSq_eq_zero b a hzb
      simp [ragCosineSimilarity, h, hdot]
    · simp [ragCosineSimilarity, h]

/-- C3, witness: `cosineSimilarity_cases` instantiated at the mismatched-length
pair `[1]` and `[]`: both copies return exactly `0`. -/
theorem cosineSimilarity_cases_witness :
    vsCosineSimilarity [(1 : ℝ)] [] = some 0 ∧ ragCosineSimilarity [(1 : ℝ)] [] = 0 :=
  (cosineSimilarity_cases [(1 : ℝ)] []).1 (by simp)

/-! ### Vector store (`DocumentChunk`, `VectorStore.similaritySearch`,
`VectorStore.clearNamespace`, src/lib/vector-store.ts)

`section` and `namespace` are Lean keywords, so the two optional metadata
fields are named `sectionTag` and `nspace` here; they model
`metadata.section` and `metadata.namespace`. -/

/-- The `metadata` bag of a `DocumentChunk`. -/
structure ChunkMeta where
  source : String
  title : String
  url : Option String
  sectionTag : Option String
  nspace : Option String

/-- `DocumentChunk` (src/lib/vector-store.ts, lines 2-13). -/
structure Chunk where
  id : String
  content : String
  embedding : List ℝ
  metadata : ChunkMeta

/-- The candidate pool of `similaritySearch`:
`namespace ? documents.filter(d => d.metadata.namespace === namespace) : documents`.
JS truthiness makes both `undefined` and the empty string select the
unfiltered store. -/
def vsPool (docs : List Chunk) (ns : Option String) : List Chunk :=
  match ns with
  | some n => if n = "" then docs else docs.filter (fun d => d.metadata.nspace = some n)
  | none => docs

/-- The `map`-then-`filter` stage of `similaritySearch`: score every pool
member, keep those with `similarity >= threshold`.  A `NaN` similarity
(`none`) fails the JS `>=` comparison and is dropped, so the kept entries
carry a real score, which `filterMap` makes explicit. -/
noncomputable def vsKept (q : List ℝ) (t : ℝ) (pool : List Chunk) : List (Chunk × ℝ) :=
  (pool.map (fun d => (d, vsCosineSimilarity q d.embedding))).filterMap
    (fun p => match p.2 with
      | some s => if t ≤ s then some (p.1, s) else none
      | none => none)

/-- The `sort((a, b) => b.similarity - a.similarity)` stage.  ECMAScript sort
is stable, and a stable sort is uniquely determined by its comparator, so the
stable `mergeSort` by descending score is an exact model. -/
noncomputable def sortScoredDesc (l : List (Chunk × ℝ)) : List (Chunk × ℝ) :=
  l.mergeSort (fun p p' => decide (p'.2 ≤ p.2))

/-- `VectorStore.similaritySearch` (src/lib/vector-store.ts, lines 43-61):
pool, score, threshold-filter, descending sort, `slice(0, k)`, project the
documents. -/
noncomputable def vsSimilaritySearch (docs : List Chunk) (q : List ℝ) (k : Nat)
    (t : ℝ) (ns : Option String) : List Chunk :=
  ((sortScoredDesc (vsKept q t (vsPool docs ns))).take k).map (·.1)

theorem vsKept_mem {q : List ℝ} {t : ℝ} {pool : List Chunk} {p : Chunk × ℝ}
    (h : p ∈ vsKept q t pool) :
    p.1 ∈ pool ∧ vsCosineSimilarity q p.1.embedding = some p.2 ∧ t ≤ p.2 := by
  unfold vsKept at h
  rcases List.mem_filterMap.mp h with ⟨a, ha, hfa⟩
  rcases List.mem_map.mp ha with ⟨d, hd, rfl⟩
  rcases hsim : vsCosineSimilarity q d.embedding with _ | s
  · simp [hsim] at hfa
  · rw [hsim] at hfa
    by_cases hts : t ≤ s
    · simp only [hts, if_pos] at hfa
      cases hfa
      exact ⟨hd, hsim, hts⟩
    · simp [hts] at hfa

theorem vsPool_sublist (docs : List Chunk) (ns : Option String) :
    (vsPool docs ns).Sublist docs := by
  unfold vsPool
  match ns with
  | none => exact List.Sublist.refl docs
  | some n =>
    by_cases h : n = ""
    · simp [h]
    · simp only [h, if_false]
      exact List.filter_sublist docs

theorem vsPool_nspace {docs : List Chunk} {n : String} (hn : n ≠ "")
    {c : Chunk} (hc : c ∈ vsPool docs (some n)) : c.metadata.nspace = some n := by
  simp only [vsPool, if_neg hn] at hc
  have := (List.mem_filter.mp hc).2
  simpa using this

theorem sortScoredDesc_pairwise (l : List (Chunk × ℝ)) :
    List.Pairwise (fun p p' => p'.2 ≤ p.2) (sortScoredDesc l) := by
  have h := @List.sorted_mergeSort (Chunk × ℝ)
    (fun p p' => decide (p'.2 ≤ p.2))
    (fun a b c hab hbc => by
      simp only [decide_eq_true_eq] at *
      exact le_trans hbc hab)
    (fun a b => by
      simp only [Bool.or_eq_true, decide_eq_true_eq]
      exact le_total b.2 a.2)
    l
  exact h.imp (fun hab => by simpa using hab)

theorem sortScoredDesc_perm (l : List (Chunk × ℝ)) :
    (sortScoredDesc l).Perm l :=
  List.mergeSort_perm l _

/-- A store chunk tagged with namespace `"tenantA"`, used as concrete input. -/
def nsChunk : Chunk :=
  { id := "c1", content := "hello", embedding := [1],
    metadata := { source := "docs", title := "T", url := none,
                  sectionTag := none, nspace := some "tenantA" } }

/-- C5, counterexample: the namespace clause fails for the supplied empty
namespace.  `namespace ? … : …` treats `""` as falsy, so the pool is left
unfiltered and `similaritySearch` returns a chunk whose
`metadata.namespace` is `"tenantA"`, not the supplied `""`. -/
theorem similaritySearch_empty_namespace_not_filtered :
    vsSimilaritySearch [nsChunk] [1] 1 0 (some "") = [nsChunk] ∧
      nsChunk.metadata.nspace ≠ some "" := by
  constructor
  · have h1 : vsCosineSimilarity [1] nsChunk.embedding = some 1 := by
      simp [vsCosineSimilarity, nsChunk, jsDiv, dot, normSq]
    have hpool : vsPool [nsChunk] (some "") = [nsChunk] := by
      simp [vsPool]
    have h2 : vsKept [1] 0 (vsPool [nsChunk] (some "")) = [(nsChunk, 1)] := by
      rw [hpool]
      unfold vsKept
      simp only [List.map_cons, List.map_nil, List.filterMap_cons, h1]
      norm_num
    simp [vsSimilaritySearch, h2, sortScoredDesc]
  · simp [nsChunk]

/-- C5 (amended): for every store, query vector, `k`, threshold and optional
namespace, `similaritySearch` returns at most `k` chunks drawn from the
store, every returned chunk's cosine similarity is a real number `≥ threshold`
(a `NaN` similarity never passes the filter), the returned chunks are ordered
by descending similarity, and when a *non-empty* namespace is supplied every
returned chunk carries exactly that namespace.  (The original claim's
namespace clause fails for the supplied empty string, which JS truthiness
treats as "no namespace".) -/
theorem similaritySearch_spec (docs : List Chunk) (q : List ℝ) (k : Nat)
    (t : ℝ) (ns : Option String) :
    (vsSimilaritySearch docs q k t ns).length ≤ k ∧
    (∀ c ∈ vsSimilaritySearch docs q k t ns,
      c ∈ docs ∧ ∃ s, vsCosineSimilarity q c.embedding = some s ∧ t ≤ s) ∧
    (∀ n, ns = some n → n ≠ "" →
      ∀ c ∈ vsSimilaritySearch docs q k t ns, c.metadata.nspace = some n) ∧
    List.Chain' (fun c1 c2 => ∀ s1 s2,
      vsCosineSimilarity q c1.embedding = some s1 →
      vsCosineSimilarity q c2.embedding = some s2 → s2 ≤ s1)
      (vsSimilaritySearch docs q k t ns) := by
  have hmem : ∀ c ∈ vsSimilaritySearch docs q k t ns,
      ∃ p : Chunk × ℝ, p ∈ vsKept q t (vsPool docs ns) ∧ p.1 = c := by
    intro c hc
    unfold vsSimilaritySearch at hc
    rcases List.mem_map.mp hc with ⟨p, hp, rfl⟩
    have hp' : p ∈ sortScoredDesc (vsKept q t (vsPool docs ns)) :=
      (List.take_sublist _ _).mem hp
    exact ⟨p, (sortScoredDesc_perm _).mem_iff.mp hp', rfl⟩
  refine ⟨?_, ?_, ?_, ?_⟩
  · unfold vsSimilaritySearch
    rw [List.length_map, List.length_take]
    exact min_le_left _ _
  · intro c hc
    rcases hmem c hc with ⟨p, hpk, rfl⟩
    rcases vsKept_mem hpk with ⟨hpool, hsim, hts⟩
    exact ⟨(vsPool_sublist docs ns).mem hpool, p.2, hsim, hts⟩
  · rintro n rfl hn c hc
    rcases hmem c hc with ⟨p, hpk, rfl⟩
    exact vsPool_nspace hn (vsKept_mem hpk).1
  · unfold vsSimilaritySearch
    apply List.Pairwise.chain'
    rw [List.pairwise_map]
    have hsorted := (sortScoredDesc_pairwise (vsKept q t (vsPool docs ns))).sublist
      (List.take_sublist k _)
    refine hsorted.imp_of_mem ?_
    intro p p' hp hp' hle s1 s2 hs1 hs2
    have hpk := vsKept_mem (((sortScoredDesc_perm _).mem_iff).mp
      ((List.take_sublist _ _).mem hp))
    have hpk' := vsKept_mem (((sortScoredDesc_perm _).mem_iff).mp
      ((List.take_sublist _ _).mem hp'))
    have e1 : s1 = p.2 := by
      have := hpk.2.1
      rw [hs1] at this
      exact Option.some.inj this
    have e2 : s2 = p'.2 := by
      have := hpk'.2.1
      rw [hs2] at this
      exact Option.some.inj this
    rw [e1, e2]
    exact hle

/-- C5, witness: the spec theorem at a one-chunk store with namespace
`"tenantA"` supplied; the namespace hypotheses are discharged concretely. -/
theorem similaritySearch_spec_witness :
    (vsSimilaritySearch [nsChunk] [1] 1 0 (some "tenantA")).length ≤ 1 ∧
    (∀ c ∈ vsSimilaritySearch [nsChunk] [1] 1 0 (some "tenantA"),
      c.metadata.nspace = some "tenantA") :=
  ⟨(similaritySearch_spec [nsChunk] [1] 1 0 (some "tenantA")).1,
   (similaritySearch_spec [nsChunk] [1] 1 0 (some "tenantA")).2.2.1 "tenantA" rfl
     (by decide)⟩

/-- `String.prototype.trim` on Lean strings. -/
def jsTrimS (s : String) : String := String.mk (jsTrim s.data)

/-- `VectorStore.clearNamespace` (src/lib/vector-store.ts, lines 72-75):
`documents = documents.filter(d => d.metadata.namespace !== namespace.trim())`. -/
def clearNamespace (docs : List Chunk) (ns : String) : List Chunk :=
  docs.filter (fun d => ¬ d.metadata.nspace = some (jsTrimS ns))

theorem length_filter_add_length_filter_not (l : List α) (p : α → Bool) :
    (l.filter p).length + (l.filter (fun a => !p a)).length = l.length := by
  induction l with
  | nil => simp
  | cons a l ih =>
    cases h : p a <;> simp [List.filter_cons, h, ih] <;> omega

/-- C6: `clearNamespace(ns)` removes exactly the chunks whose
`metadata.namespace` equals `ns.trim()`: the survivors are a sublist of the
store (same chunks, same relative order), membership in the result is
equivalent to not carrying the trimmed namespace, and the document count
drops by exactly the number of chunks carrying it. -/
theorem clearNamespace_spec (docs : List Chunk) (ns : String) :
    (clearNamespace docs ns).Sublist docs ∧
    (∀ c ∈ docs, (c ∈ clearNamespace docs ns ↔
      ¬ c.metadata.nspace = some (jsTrimS ns))) ∧
    docs.length = (clearNamespace docs ns).length
      + docs.countP (fun d => d.metadata.nspace = some (jsTrimS ns)) := by
  refine ⟨List.filter_sublist docs, ?_, ?_⟩
  · intro c hc
    constructor
    · intro hmem
      have := (List.mem_filter.mp hmem).2
      simpa using this
    · intro hne
      exact List.mem_filter.mpr ⟨hc, by simpa using hne⟩
  · rw [List.countP_eq_length_filter]
    have h := length_filter_add_length_filter_not docs
      (fun d => decide (d.metadata.nspace = some (jsTrimS ns)))
    unfold clearNamespace
    simp only [decide_not] at h ⊢
    omega

/-- C6, witness: the membership characterization instantiated at a
single-chunk store whose namespace differs from the cleared one. -/
theorem clearNamespace_spec_witness :
    nsChunk ∈ clearNamespace [nsChunk] "x" ↔
      ¬ nsChunk.metadata.nspace = some (jsTrimS "x") :=
  (clearNamespace_spec [nsChunk] "x").2.1 nsChunk (by simp)

/-! ### Retrieval policy (`RAGService.query`, src/lib/rag-service.ts, lines 29-109)

We model the pure chunk-selection stage: the query embedding is an input
(the embedding call is an external round-trip), and the selected
`relevantChunks` list is the output.  `isMock` models
`USE_MOCK_OPENAI === "true" || DEMO_MODE === "true"`. -/

/-- `allDocs.filter(d => d.metadata.source === "uploaded")`. -/
def uploadedOf (docs : List Chunk) : List Chunk :=
  docs.filter (fun d => d.metadata.source = "uploaded")

/-- The uploaded-branch scoring: every uploaded chunk is paired with its
`RAGService.cosineSimilarity` against the query. -/
noncomputable def ragScored (q : List ℝ) (l : List Chunk) : List (Chunk × ℝ) :=
  l.map (fun d => (d, ragCosineSimilarity q d.embedding))

/-- The uploaded branch: score, sort descending (stable), `slice(0, k)`,
project the documents. -/
noncomputable def ragTopK (q : List ℝ) (k : Nat) (l : List Chunk) : List Chunk :=
  ((sortScoredDesc (ragScored q l)).take k).map (·.1)

/-- JS `Array.from(new Set(…))`: deduplicate keeping first occurrences. -/
noncomputable def jsDedup : List ℝ → List ℝ
  | [] => []
  | a :: rest => a :: jsDedup (rest.filter (fun x => decide (x ≠ a)))
termination_by l => l.length
decreasing_by
  simp only [List.length_cons]
  exact Nat.lt_succ_of_le (List.length_filter_le _ _)

/-- `Array.from(new Set([effectiveThreshold, 0.3, 0.0].filter(t => t >= 0 && t <= 1)))`. -/
noncomputable def ragThresholds (eff : ℝ) : List ℝ :=
  jsDedup (([eff, 0.3, 0] : List ℝ).filter (fun t => decide (0 ≤ t) && decide (t ≤ 1)))

/-- The `for (const t of thresholds)` backoff loop.  The loop breaks on the
first threshold with a non-empty search result; on the last threshold
(`t === thresholds[thresholds.length - 1]`, exact because the `Set`
deduplicated) an empty search forces the first `maxResults` chunks of the
namespace pool (`getAllDocuments` then the same truthy namespace filter). -/
noncomputable def thresholdLoop (docs : List Chunk) (q : List ℝ) (k : Nat)
    (ns : Option String) : List ℝ → List Chunk
  | [] => []
  | [t] =>
    let r := vsSimilaritySearch docs q k t ns
    if r.isEmpty then (vsPool docs ns).take k else r
  | t :: t' :: rest =>
    let r := vsSimilaritySearch docs q k t ns
    if r.isEmpty then thresholdLoop docs q k ns (t' :: rest) else r

/-- The retrieval stage of `RAGService.query`: mock mode overrides the
threshold to `0`; when any uploaded chunk exists the candidate pool is
exactly the uploaded chunks ranked by similarity; otherwise the
threshold-backoff search over the namespace pool runs. -/
noncomputable def ragRetrieve (docs : List Chunk) (q : List ℝ) (k : Nat)
    (threshold : ℝ) (ns : Option String) (isMock : Bool) : List Chunk :=
  let eff := if isMock then 0 else threshold
  let uploaded := uploadedOf docs
  if uploaded.isEmpty then thresholdLoop docs q k ns (ragThresholds eff)
  else ragTopK q k uploaded

/-- The candidate pool the retrieval policy actually searches: the uploaded
chunks when any exist, otherwise the namespace pool (with JS truthiness on
the namespace argument, as in the code). -/
def applicablePool (docs : List Chunk) (ns : Option String) : List Chunk :=
  if (uploadedOf docs).isEmpty then vsPool docs ns else uploadedOf docs

theorem vsSimilaritySearch_of_pool_nil {docs : List Chunk} {ns : Option String}
    (h : vsPool docs ns = []) (q : List ℝ) (k : Nat) (t : ℝ) :
    vsSimilaritySearch docs q k t ns = [] := by
  unfold vsSimilaritySearch
  rw [h]
  simp [vsKept, sortScoredDesc]

theorem thresholdLoop_nil_iff (docs : List Chunk) (q : List ℝ) (k : Nat)
    (ns : Option String) (hk : 1 ≤ k) :
    ∀ ts : List ℝ, ts ≠ [] →
      (thresholdLoop docs q k ns ts = [] ↔ vsPool docs ns = []) := by
  intro ts
  induction ts with
  | nil => intro h; exact absurd rfl h
  | cons t rest ih =>
    intro _
    cases rest with
    | nil =>
      simp only [thresholdLoop]
      by_cases hr : (vsSimilaritySearch docs q k t ns).isEmpty
      · rw [if_pos hr]
        constructor
        · intro htake
          by_contra hpool
          have hlen : 0 < (vsPool docs ns).length :=
            List.length_pos.mpr hpool
          have : ((vsPool docs ns).take k).length = min k (vsPool docs ns).length := by
            simp [List.length_take]
          rw [htake] at this
          simp at this
          omega
        · intro hpool
          rw [hpool]
          simp
      · rw [if_neg hr]
        constructor
        · intro hempty
          exact absurd (by simp [hempty, List.isEmpty_nil]) hr
        · intro hpool
          exact absurd (by simp [vsSimilaritySearch_of_pool_nil hpool,
            List.isEmpty_nil]) hr
    | cons t' rest' =>
      simp only [thresholdLoop]
      by_cases hr : (vsSimilaritySearch docs q k t ns).isEmpty
      · rw [if_pos hr]
        exact ih (by simp)
      · rw [if_neg hr]
        constructor
        · intro hempty
          exact absurd (by simp [hempty, List.isEmpty_nil]) hr
        · intro hpool
          exact absurd (by simp [vsSimilaritySearch_of_pool_nil hpool,
            List.isEmpty_nil]) hr

theorem ragThresholds_ne_nil (eff : ℝ) : ragThresholds eff ≠ [] := by
  unfold ragThresholds
  have h3 : ((0.3 : ℝ)) ∈ (([eff, 0.3, 0] : List ℝ).filter
      (fun t => decide (0 ≤ t) && decide (t ≤ 1))) := by
    apply List.mem_filter.mpr
    refine ⟨by simp, ?_⟩
    norm_num
  rcases hl : (([eff, 0.3, 0] : List ℝ).filter
      (fun t => decide (0 ≤ t) && decide (t ≤ 1))) with _ | ⟨a, rest⟩
  · rw [hl] at h3
    simp at h3
  · rw [jsDedup]
    simp

/-- C2: with `maxResults ≥ 1`, the retrieval stage returns an empty chunk
list exactly when the applicable candidate pool (uploaded chunks if any
exist, else the truthy-namespace-filtered store) is empty: the threshold
backoff `[similarityThreshold, 0.3, 0.0]` followed by the forced
top-`maxResults` selection never yields an empty result over a non-empty
pool, for every query vector, threshold, namespace and mock flag. -/
theorem ragRetrieve_nil_iff_pool_nil (docs : List Chunk) (q : List ℝ) (k : Nat)
    (threshold : ℝ) (ns : Option String) (isMock : Bool) (hk : 1 ≤ k) :
    (ragRetrieve docs q k threshold ns isMock = [] ↔
      applicablePool docs ns = []) := by
  unfold ragRetrieve applicablePool
  by_cases hup : (uploadedOf docs).isEmpty
  · rw [if_pos hup, if_pos hup]
    exact thresholdLoop_nil_iff docs q k ns hk _ (ragThresholds_ne_nil _)
  · rw [if_neg hup, if_neg hup]
    have hlen : (uploadedOf docs) ≠ [] := by
      intro h
      rw [h] at hup
      exact hup List.isEmpty_nil
    have hpos : 0 < (uploadedOf docs).length := List.length_pos.mpr hlen
    constructor
    · intro h
      have : (ragTopK q k (uploadedOf docs)).length = 0 := by rw [h]; rfl
      unfold ragTopK at this
      rw [List.length_map, List.length_take] at this
      have hslen : (sortScoredDesc (ragScored q (uploadedOf docs))).length
          = (uploadedOf docs).length := by
        rw [(sortScoredDesc_perm _).length_eq]
        simp [ragScored]
      rw [hslen] at this
      omega
    · intro h
      exact absurd h hlen

/-- C2, witness: a store holding one non-uploaded chunk and no namespace has
a non-empty applicable pool, so retrieval returns a non-empty list. -/
theorem ragRetrieve_nil_iff_pool_nil_witness :
    ¬ ragRetrieve [nsChunk] [1] 1 0.7 none false = [] := by
  intro h
  have := (ragRetrieve_nil_iff_pool_nil [nsChunk] [1] 1 0.7 none false
    (by decide)).mp h
  simp [applicablePool, uploadedOf, vsPool, nsChunk] at this

theorem ragScored_mem {q : List ℝ} {l : List Chunk} {p : Chunk × ℝ}
    (h : p ∈ ragScored q l) :
    p.1 ∈ l ∧ p.2 = ragCosineSimilarity q p.1.embedding := by
  rcases List.mem_map.mp h with ⟨d, hd, rfl⟩
  exact ⟨hd, rfl⟩

theorem uploadedOf_mem {docs : List Chunk} {c : Chunk} (h : c ∈ uploadedOf docs) :
    c ∈ docs ∧ c.metadata.source = "uploaded" := by
  have := List.mem_filter.mp h
  exact ⟨this.1, by simpa using this.2⟩

/-- C4: whenever the store holds at least one chunk with
`metadata.source == "uploaded"`, the retrieval stage ranks exactly the
uploaded chunks by descending `RAGService.cosineSimilarity` and returns the
top `maxResults` of them: every returned chunk is an uploaded store chunk,
the result length is `min maxResults #uploaded`, the namespace argument and
threshold and mock flag are ignored, the result is similarity-sorted, and no
non-returned uploaded chunk scores higher than any returned one. -/
theorem ragRetrieve_uploaded_preference (docs : List Chunk) (q : List ℝ) (k : Nat)
    (threshold : ℝ) (ns : Option String) (isMock : Bool)
    (hup : (uploadedOf docs).isEmpty = false) :
    (∀ c ∈ ragRetrieve docs q k threshold ns isMock,
        c ∈ docs ∧ c.metadata.source = "uploaded") ∧
    (ragRetrieve docs q k threshold ns isMock).length
        = min k (uploadedOf docs).length ∧
    (∀ threshold' ns' isMock',
        ragRetrieve docs q k threshold ns isMock
          = ragRetrieve docs q k threshold' ns' isMock') ∧
    List.Chain' (fun c1 c2 =>
      ragCosineSimilarity q c2.embedding ≤ ragCosineSimilarity q c1.embedding)
      (ragRetrieve docs q k threshold ns isMock) ∧
    (∀ c ∈ ragRetrieve docs q k threshold ns isMock,
      ∀ d ∈ uploadedOf docs, d ∉ ragRetrieve docs q k threshold ns isMock →
        ragCosineSimilarity q d.embedding ≤ ragCosineSimilarity q c.embedding) := by
  have hret : ∀ t' n' m', ragRetrieve docs q k t' n' m' = ragTopK q k (uploadedOf docs) := by
    intro t' n' m'
    simp [ragRetrieve, hup]
  set sorted := sortScoredDesc (ragScored q (uploadedOf docs)) with hsorted
  have hmem : ∀ c ∈ ragTopK q k (uploadedOf docs),
      ∃ p : Chunk × ℝ, p ∈ sorted.take k ∧ p.1 = c := by
    intro c hc
    unfold ragTopK at hc
    rcases List.mem_map.mp hc with ⟨p, hp, rfl⟩
    exact ⟨p, hp, rfl⟩
  have hinv : ∀ p : Chunk × ℝ, p ∈ sorted →
      p.1 ∈ uploadedOf docs ∧ p.2 = ragCosineSimilarity q p.1.embedding := by
    intro p hp
    exact ragScored_mem ((sortScoredDesc_perm _).mem_iff.mp hp)
  rw [hret threshold ns isMock]
  refine ⟨?_, ?_, ?_, ?_, ?_⟩
  · intro c hc
    rcases hmem c hc with ⟨p, hp, rfl⟩
    exact uploadedOf_mem (hinv p ((List.take_sublist _ _).mem hp)).1
  · unfold ragTopK
    rw [List.length_map, List.length_take, (sortScoredDesc_perm _).length_eq]
    simp [ragScored]
  · intro t' n' m'
    rw [hret t' n' m']
  · unfold ragTopK
    apply List.Pairwise.chain'
    rw [List.pairwise_map]
    have hpw := (sortScoredDesc_pairwise (ragScored q (uploadedOf docs))).sublist
      (List.take_sublist k sorted)
    refine hpw.imp_of_mem ?_
    intro p p' hp hp' hle
    have h1 := hinv p ((List.take_sublist _ _).mem hp)
    have h2 := hinv p' ((List.take_sublist _ _).mem hp')
    rw [← h1.2, ← h2.2]
    exact hle
  · intro c hc d hd hdnot
    rcases hmem c hc with ⟨pc, hpc, rfl⟩
    have hdpair : (d, ragCosineSimilarity q d.embedding) ∈ sorted := by
      apply (sortScoredDesc_perm _).mem_iff.mpr
      exact List.mem_map.mpr ⟨d, hd, rfl⟩
    have hdrop : (d, ragCosineSimilarity q d.embedding) ∈ sorted.drop k := by
      have hsplit := List.take_append_drop k sorted
      rcases List.mem_append.mp (by rw [hsplit]; exact hdpair) with htk | hdr
      · exfalso
        apply hdnot
        unfold ragTopK
        exact List.mem_map.mpr ⟨(d, ragCosineSimilarity q d.embedding), htk, rfl⟩
      · exact hdr
    have hpw := sortScoredDesc_pairwise (ragScored q (uploadedOf docs))
    rw [← hsorted, ← List.take_append_drop k sorted, List.pairwise_append] at hpw
    have hrel := hpw.2.2 pc hpc _ hdrop
    have h1 := hinv pc ((List.take_sublist _ _).mem hpc)
    rw [← h1.2]
    exact hrel

/-- A store chunk with `metadata.source == "uploaded"`, used as a concrete
input. -/
def upChunk : Chunk :=
  { id := "u1", content := "up", embedding := [1],
    metadata := { source := "uploaded", title := "U", url := none,
                  sectionTag := none, nspace := none } }

/-- C4, witness: the uploaded-preference theorem at a one-uploaded-chunk
store; the non-empty-uploaded hypothesis is discharged by evaluation. -/
theorem ragRetrieve_uploaded_preference_witness :
    (∀ c ∈ ragRetrieve [upChunk] [1] 1 0.7 none false,
        c ∈ [upChunk] ∧ c.metadata.source = "uploaded") ∧
    (ragRetrieve [upChunk] [1] 1 0.7 none false).length = 1 := by
  have h := ragRetrieve_uploaded_preference [upChunk] [1] 1 0.7 none false (by rfl)
  refine ⟨h.1, ?_⟩
  rw [h.2.1]
  rfl

/-! ### Provider retry policy (`OpenAIClient.postWithRetry`,
src/lib/openai-client.ts, lines 90-133)

The `while (true)` fetch loop is modelled over a deterministic environment
`fetch : Nat → HttpResp` giving the response to the `i`-th HTTP call of this
invocation.  The backoff sleeps (delay doubling, `Retry-After`, jitter) only
affect timing, which the claim does not quantify; the control flow —
which statuses retry, the ceiling `attempt > maxRetries`, and which call's
error is surfaced — is modelled exactly.  A thrown `Error` is the `failure`
outcome carrying the status of the final response. -/

/-- An HTTP response as discriminated by `postWithRetry`: `response.ok`
(status 200-299) or a non-ok status code. -/
inductive HttpResp where
  | ok : HttpResp
  | err (status : Nat) : HttpResp

/-- The outcome of `postWithRetry`: success or a thrown provider error,
each tagged with the index of the fetch call that decided it. -/
inductive PostOutcome where
  | success (call : Nat) : PostOutcome
  | failure (status : Nat) (call : Nat) : PostOutcome

/-- The retry loop: `status === 429 || status >= 500` retries after
incrementing `attempt`, failing once `attempt > maxRetries`; any other
non-ok status throws immediately. -/
def retryLoop (fetch : Nat → HttpResp) (maxRetries : Nat) :
    Nat → Nat → PostOutcome
  | attempt, call =>
    match fetch call with
    | .ok => .success call
    | .err s =>
      if s = 429 ∨ 500 ≤ s then
        if h : attempt + 1 > maxRetries then .failure s call
        else retryLoop fetch maxRetries (attempt + 1) (call + 1)
      else .failure s call
termination_by attempt _ => maxRetries + 1 - attempt
decreasing_by omega

/-- `postWithRetry` with its fixed default `maxRetries = 5`, starting at
`attempt = 0` with the first fetch. -/
def postWithRetry (fetch : Nat → HttpResp) : PostOutcome :=
  retryLoop fetch 5 0 0

theorem retryLoop_fail_all_retryable (fetch : Nat → HttpResp) (m : Nat) :
    ∀ k a, m - a = k → a ≤ m →
      (∀ i, a ≤ i → i ≤ m → ∃ s, fetch i = .err s ∧ (s = 429 ∨ 500 ≤ s)) →
      ∃ s, fetch m = .err s ∧ retryLoop fetch m a a = .failure s m := by
  intro k
  induction k with
  | zero =>
    intro a hk ham hall
    have ham' : a = m := by omega
    subst ham'
    rcases hall a le_rfl le_rfl with ⟨s, hs, hr⟩
    refine ⟨s, hs, ?_⟩
    rw [retryLoop, hs]
    simp only [if_pos hr]
    rw [dif_pos (by omega)]
  | succ k ih =>
    intro a hk ham hall
    rcases hall a le_rfl (by omega) with ⟨s, hs, hr⟩
    have hstep : retryLoop fetch m a a = retryLoop fetch m (a + 1) (a + 1) := by
      rw [retryLoop, hs]
      simp only [if_pos hr]
      rw [dif_neg (by omega)]
    rcases ih (a + 1) (by omega) (by omega)
      (fun i hi hi' => hall i (by omega) hi') with ⟨s', hs', hout⟩
    exact ⟨s', hs', by rw [hstep, hout]⟩

theorem retryLoop_success_at (fetch : Nat → HttpResp) (m : Nat) :
    ∀ k a j, j - a = k → a ≤ j → j ≤ m → fetch j = .ok →
      (∀ i, a ≤ i → i < j → ∃ s, fetch i = .err s ∧ (s = 429 ∨ 500 ≤ s)) →
      retryLoop fetch m a a = .success j := by
  intro k
  induction k with
  | zero =>
    intro a j hk haj hjm hok hbefore
    have : a = j := by omega
    subst this
    rw [retryLoop, hok]
  | succ k ih =>
    intro a j hk haj hjm hok hbefore
    rcases hbefore a le_rfl (by omega) with ⟨s, hs, hr⟩
    rw [retryLoop, hs]
    simp only [if_pos hr]
    rw [dif_neg (by omega)]
    exact ih (a + 1) j (by omega) (by omega) hjm hok
      (fun i hi hi' => hbefore i (by omega) hi')

/-- C8: in live mode, a call receiving a retryable status (429 or 5xx) is
retried up to the fixed ceiling of 5 retries — if all six calls (the first
plus five retries) come back retryable, the loop throws the provider error
of the sixth call; a call that succeeds within the budget after transient
errors returns its payload; and a response with any other non-ok status
(e.g. a non-429 4xx) throws immediately, with no retry. -/
theorem postWithRetry_policy (fetch : Nat → HttpResp) :
    (∀ s, fetch 0 = .err s → ¬(s = 429 ∨ 500 ≤ s) →
      postWithRetry fetch = .failure s 0) ∧
    ((∀ i, i ≤ 5 → ∃ s, fetch i = .err s ∧ (s = 429 ∨ 500 ≤ s)) →
      ∃ s, fetch 5 = .err s ∧ postWithRetry fetch = .failure s 5) ∧
    (∀ j, j ≤ 5 → fetch j = .ok →
      (∀ i, i < j → ∃ s, fetch i = .err s ∧ (s = 429 ∨ 500 ≤ s)) →
      postWithRetry fetch = .success j) := by
  refine ⟨?_, ?_, ?_⟩
  · intro s hs hnr
    unfold postWithRetry
    rw [retryLoop, hs]
    simp only [if_neg hnr]
  · intro hall
    exact retryLoop_fail_all_retryable fetch 5 5 0 rfl (by omega)
      (fun i _ hi' => hall i hi')
  · intro j hj hok hbefore
    exact retryLoop_success_at fetch 5 j 0 j (Nat.sub_zero j) (Nat.zero_le j) hj hok
      (fun i _ hi' => hbefore i hi')

/-- C8, witness: the policy theorem at two concrete environments — a
constant 400 responder fails on the first call with no retry, and a constant
500 responder fails on call index 5 (one initial call plus five retries). -/
theorem postWithRetry_policy_witness :
    postWithRetry (fun _ => .err 400) = .failure 400 0 ∧
    postWithRetry (fun _ => .err 500) = .failure 500 5 := by
  constructor
  · exact (postWithRetry_policy (fun _ => .err 400)).1 400 rfl (by norm_num)
  · have h := (postWithRetry_policy (fun _ => .err 500)).2.1
      (fun i _ => ⟨500, rfl, by norm_num⟩)
    rcases h with ⟨s, hs, hout⟩
    cases hs
    exact hout

/-! ### Section extractor (`DocumentProcessor.extractSections`,
src/lib/document-processor.ts, lines 50-84) -/

/-- `content.split("\n")`. -/
def splitLines : List Char → List (List Char)
  | [] => [[]]
  | c :: rest =>
    if c = '\n' then [] :: splitLines rest
    else
      match splitLines rest with
      | [] => [[c]]
      | l0 :: ls => (c :: l0) :: ls

/-- ECMAScript LineTerminator characters, which the regex `.` cannot match. -/
def isLineTerm (c : Char) : Bool :=
  c = '\n' ∨ c = '\r' ∨ c.toNat = 0x2028 ∨ c.toNat = 0x2029

/-- `line.match(/^(#{1,6})\s+(.+)$/)`: `some (level, trimmed title)` when
the line is a heading.  A match needs 1-6 leading `#` (the `#`-run must not
extend past 6), then at least one `\s` character, then at least one
non-LineTerminator character reaching the end of the line; the captured
group 2 is everything after the whitespace run (backtracking hands the run's
last character to `(.+)` only when nothing else is left, and the source
trims the capture, so the trimmed title is empty in that case). -/
def headingMatch (l : List Char) : Option (Nat × List Char) :=
  let k := (l.takeWhile (· = '#')).length
  if 1 ≤ k ∧ k ≤ 6 then
    let rest := l.drop k
    let w := rest.takeWhile isJsWs
    match rest.dropWhile isJsWs with
    | [] =>
      match w.getLast? with
      | some c => if 2 ≤ w.length ∧ ¬ isLineTerm c then some (k, []) else none
      | none => none
    | t =>
      if 1 ≤ w.length ∧ t.all (fun c => ¬ isLineTerm c) then some (k, jsTrim t)
      else none
  else none

/-- A `DocumentSection`: heading title, accumulated content, heading level. -/
structure DocSection where
  title : List Char
  content : List Char
  level : Nat
deriving DecidableEq

/-- The line loop of `extractSections`: a heading line pushes the open
section (if any) and opens a new one; other lines append `line + "\n"` to
the open section's content and are discarded when no section is open; the
final open section is pushed at the end. -/
def extractGo : List (List Char) → Option DocSection → List DocSection
  | [], none => []
  | [], some cur => [cur]
  | line :: rest, cur =>
    match headingMatch line with
    | some kt =>
      (match cur with
       | some c => [c]
       | none => []) ++ extractGo rest (some ⟨kt.2, [], kt.1⟩)
    | none =>
      match cur with
      | some c => extractGo rest (some ⟨c.title, c.content ++ line ++ ['\n'], c.level⟩)
      | none => extractGo rest none

/-- `extractSections` on a pre-split line list, with the final
`content.trim()` map. -/
def extractSectionsLines (ls : List (List Char)) : List DocSection :=
  (extractGo ls none).map (fun s => ⟨s.title, jsTrim s.content, s.level⟩)

/-- `DocumentProcessor.extractSections`. -/
def extractSections (content : List Char) : List DocSection :=
  extractSectionsLines (splitLines content)

theorem extractGo_skip (ls : List (List Char)) :
    extractGo ls none
      = extractGo (ls.dropWhile (fun l => (headingMatch l).isNone)) none := by
  induction ls with
  | nil => rfl
  | cons line rest ih =>
    cases h : headingMatch line with
    | none =>
      have hdw : (line :: rest).dropWhile (fun l => (headingMatch l).isNone)
          = rest.dropWhile (fun l => (headingMatch l).isNone) := by
        rw [List.dropWhile_cons_of_pos]
        simp [h]
      rw [hdw, ← ih]
      simp [extractGo, h]
    | some kt =>
      have hdw : (line :: rest).dropWhile (fun l => (headingMatch l).isNone)
          = line :: rest := by
        rw [List.dropWhile_cons_of_neg]
        simp [h]
      rw [hdw]

/-- C10: `extractSections` discards every line preceding the first heading
line: its output on any content equals its output with all leading
non-heading lines removed, so no preamble line contributes to any returned
section's title or content (and heading-free content yields no sections). -/
theorem extractSections_ignores_preamble (content : List Char) :
    extractSections content
      = extractSectionsLines ((splitLines content).dropWhile
          (fun l => (headingMatch l).isNone)) := by
  unfold extractSections extractSectionsLines
  rw [extractGo_skip]

/-! ### Mock embedding (`OpenAIClient.mockEmbedding`,
src/lib/openai-client.ts, lines 186-214)

`text.charCodeAt(i)` enumerates UTF-16 code units, so the input text is
modelled as its code-unit list.  All 32-bit bitwise steps (`>>> 0`,
`Math.imul`, `^`, `<<`, `>>>`) are exact on `Nat` modulo `2^32`, and the
pre-normalization entries `rand() * 2 - 1` are exact dyadic rationals in
doubles, computed here in `ℚ`. -/

/-- The FNV-1a style seed hash: `h = 2166136261; h ^= code; h = imul(h, 16777619) >>> 0`. -/
def fnvHash (codes : List Nat) : Nat :=
  codes.foldl (fun h c => (h ^^^ c) * 16777619 % 4294967296) 2166136261

/-- One `rand()` state update (xorshift32):
`h ^= h << 13; h ^= h >>> 17; h ^= h << 5`, all on 32-bit words. -/
def xorshift (h : Nat) : Nat :=
  let h1 := h ^^^ (h * 8192 % 4294967296)
  let h2 := h1 ^^^ (h1 / 131072)
  h2 ^^^ (h2 * 32 % 4294967296)

/-- The generator state after `n` calls of `rand()`. -/
def xsIter (seed : Nat) : Nat → Nat
  | 0 => seed
  | n + 1 => xorshift (xsIter seed n)

/-- `rand() * 2 - 1` for generator state `h`: `(h >>> 0) / 4294967296 * 2 - 1`. -/
def rawEntry (h : Nat) : ℚ := (h : ℚ) / 4294967296 * 2 - 1

/-- The pre-normalization mock vector: entry `i` uses the state after `i + 1`
`rand()` calls from the text's hash seed. -/
def mockRaw (codes : List Nat) (dim : Nat) : List ℚ :=
  (List.range dim).map (fun i => rawEntry (xsIter (fnvHash codes) (i + 1)))

/-- Entrywise cast of the exact rational raw vector into the reals. -/
def castR (l : List ℚ) : List ℝ := l.map (fun x => (Rat.cast x : ℝ))

/-- `OpenAIClient.mockEmbedding` with its default `dim = 1536`: the raw
vector divided entrywise by `Math.sqrt(norm) || 1`. -/
noncomputable def mockEmbedding (codes : List Nat) : List ℝ :=
  (castR (mockRaw codes 1536)).map
    (fun x => x / orOne (Real.sqrt (normSq (castR (mockRaw codes 1536)))))

/-- `createEmbedding` in mock mode: the env-gated branch returns
`this.mockEmbedding(text)`, ignoring the API key and the model argument. -/
noncomputable def createEmbeddingMock (_apiKey : String) (_model : Option String)
    (codes : List Nat) : List ℝ :=
  mockEmbedding codes

theorem rawEntry_eq_zero_iff (h : Nat) : rawEntry h = 0 ↔ h = 2147483648 := by
  unfold rawEntry
  rw [sub_eq_zero]
  constructor
  · intro he
    have : (h : ℚ) = 2147483648 := by
      field_simp at he
      linarith
    exact_mod_cast this
  · intro he
    subst he
    norm_num

theorem normSq_pos_of_mem {l : List ℝ} {x : ℝ} (hx : x ∈ l) (hx0 : x ≠ 0) :
    0 < normSq l := by
  induction l with
  | nil => simp at hx
  | cons y ys ih =>
    have hys : 0 ≤ normSq ys := normSq_nonneg ys
    have hsum : normSq (y :: ys) = y * y + normSq ys := by simp [normSq]
    rcases List.mem_cons.mp hx with rfl | hmem
    · have hxx : 0 < x * x := mul_self_pos.mpr hx0
      rw [hsum]
      linarith
    · have hy2 : 0 ≤ y * y := mul_self_nonneg y
      have := ih hmem
      rw [hsum]
      linarith

theorem normSq_map_div (l : List ℝ) (n : ℝ) :
    normSq (l.map (fun x => x / n)) = normSq l / n ^ 2 := by
  induction l with
  | nil => simp [normSq]
  | cons x xs ih =>
    simp only [List.map_cons, normSq, List.sum_cons] at ih ⊢
    rw [ih]
    field_simp
    ring

theorem mockRaw_normSq_pos (codes : List Nat) :
    0 < normSq (castR (mockRaw codes 1536)) := by
  have hkey : rawEntry (xsIter (fnvHash codes) 1) ≠ 0 ∨
      rawEntry (xsIter (fnvHash codes) 2) ≠ 0 := by
    by_contra hc
    push_neg at hc
    have h1 := (rawEntry_eq_zero_iff _).mp hc.1
    have h2 := (rawEntry_eq_zero_iff _).mp hc.2
    have hstep : xsIter (fnvHash codes) 2 = xorshift (xsIter (fnvHash codes) 1) := rfl
    rw [hstep, h1] at h2
    have hfix : xorshift 2147483648 ≠ 2147483648 := by decide
    exact hfix h2
  have hmemraw : ∀ i, i < 1536 →
      rawEntry (xsIter (fnvHash codes) (i + 1)) ∈ mockRaw codes 1536 := by
    intro i hi
    unfold mockRaw
    exact List.mem_map.mpr ⟨i, List.mem_range.mpr hi, rfl⟩
  rcases hkey with hne | hne
  · refine @normSq_pos_of_mem _
      ((Rat.cast (rawEntry (xsIter (fnvHash codes) 1)) : ℝ)) ?_ ?_
    · exact List.mem_map.mpr ⟨_, hmemraw 0 (by norm_num), rfl⟩
    · exact_mod_cast hne
  · refine @normSq_pos_of_mem _
      ((Rat.cast (rawEntry (xsIter (fnvHash codes) 2)) : ℝ)) ?_ ?_
    · exact List.mem_map.mpr ⟨_, hmemraw 1 (by norm_num), rfl⟩
    · exact_mod_cast hne

/-- C9: the mock embedding is a pure function of the input text (equal texts
give bit-identical vectors, whatever API key or model name accompany the
call), the vector has the fixed dimension 1536, and it is L2-normalized to
exactly unit length (the raw xorshift vector is provably nonzero, so the
`|| 1` guard never masks a zero norm). -/
theorem mockEmbedding_deterministic (codes codes' : List Nat) :
    (codes = codes' →
      ∀ apiKey apiKey' model model',
        createEmbeddingMock apiKey model codes
          = createEmbeddingMock apiKey' model' codes') ∧
    (mockEmbedding codes).length = 1536 ∧
    normSq (mockEmbedding codes) = 1 := by
  refine ⟨?_, ?_, ?_⟩
  · rintro rfl _ _ _ _
    rfl
  · unfold mockEmbedding castR mockRaw
    rw [List.length_map, List.length_map, List.length_map, List.length_range]
  · have hpos := mockRaw_normSq_pos codes
    have hsq : Real.sqrt (normSq (castR (mockRaw codes 1536))) ≠ 0 :=
      ne_of_gt (Real.sqrt_pos.mpr hpos)
    have hnorm : orOne (Real.sqrt (normSq (castR (mockRaw codes 1536))))
        = Real.sqrt (normSq (castR (mockRaw codes 1536))) := by
      unfold orOne
      rw [if_neg hsq]
    unfold mockEmbedding
    rw [hnorm, normSq_map_div, Real.sq_sqrt (le_of_lt hpos)]
    exact div_self (ne_of_gt hpos)

/-- C9, witness: the determinism theorem applied to the code-unit list of
`"hi"`, with the equal-texts hypothesis discharged by `rfl`. -/
theorem mockEmbedding_deterministic_witness :
    createEmbeddingMock "k1" none [104, 105]
        = createEmbeddingMock "k2" (some "m") [104, 105] ∧
    (mockEmbedding [104, 105]).length = 1536 :=
  ⟨(mockEmbedding_deterministic [104, 105] [104, 105]).1 rfl "k1" "k2" none (some "m"),
   (mockEmbedding_deterministic [104, 105] [104, 105]).2.1⟩

/-! ### Text normalizer (`normalizeExtractedText`, upload route,
src/unnamed/part_003, lines 108-135)

Each regex replacement is translated into the equivalent scanner over
`List Char`:
* `/\r\n?/g → "\n"` rewrites every `\r` (eating one following `\n`) to `\n`;
* `/ /g → " "` and `/­/g → ""` are a map and a filter;
* the ligature table is a per-character expansion;
* `/([A-Za-z])-(?:\s*\n)\s*([A-Za-z])/g → "$1$2"` matches a letter, `-`, a
  whitespace run containing at least one `\n` and extending to the next
  non-whitespace character (the two greedy `\s*` absorb the run and
  whitespace is never a letter), then a letter; replacement scanning is
  non-overlapping and resumes after each match;
* `/[ \t]+/g → " "` turns every maximal space/tab run into one space;
* `/\n{3,}/g → "\n\n"` truncates every maximal run of `≥ 3` newlines to two.
-/

/-- Step 1, `t.replace(/\r\n?/g, "\n")`: every `\r`, together with one
directly following `\n` if present, becomes a single `\n`. -/
def newlineNorm : List Char → List Char
  | [] => []
  | a :: rest =>
    if a = '\r' then
      match rest with
      | b :: rest2 =>
        if b = '\n' then '\n' :: newlineNorm rest2 else '\n' :: newlineNorm (b :: rest2)
      | [] => ['\n']
    else a :: newlineNorm rest

/-- Step 2, `t.replace(/\u00A0/g, " ")`. -/
def nbspFix (l : List Char) : List Char :=
  l.map (fun c => if c = '\u00A0' then ' ' else c)

/-- Step 3, `t.replace(/\u00AD/g, "")`. -/
def stripShy (l : List Char) : List Char :=
  l.filter (fun c => ¬ c = '\u00AD')

/-- The five ligature code points of the source's replacement table. -/
def isLig (c : Char) : Bool :=
  c = '\uFB00' ∨ c = '\uFB01' ∨ c = '\uFB02' ∨ c = '\uFB03' ∨ c = '\uFB04'

/-- The expansion of one character under the ligature table. -/
def expandLig (c : Char) : List Char :=
  if c = '\uFB00' then ['f', 'f']
  else if c = '\uFB01' then ['f', 'i']
  else if c = '\uFB02' then ['f', 'l']
  else if c = '\uFB03' then ['f', 'f', 'i']
  else if c = '\uFB04' then ['f', 'f', 'l']
  else [c]

/-- Step 4, the ligature replacement loop.  The five replaced characters are
distinct single code points and the replacement strings contain no ligature
code points, so the five sequential global replaces equal one simultaneous
per-character expansion. -/
def ligFix (l : List Char) : List Char := l.flatMap expandLig

/-- Step 5, the de-hyphenation replacement.  On a failed match attempt the
scanner advances one position; since only a letter can start a match, the
failure branches re-scan from the character after the candidate's first
letter, which the `a :: dehyph …` calls implement. -/
def dehyph : List Char → List Char
  | [] => []
  | a :: rest =>
    if isAsciiLetter a then
      match rest with
      | x :: rest2 =>
        if x = '-' then
          if (rest2.takeWhile isJsWs).contains '\n' then
            match h4 : rest2.dropWhile isJsWs with
            | b :: rest4 =>
              if isAsciiLetter b then a :: b :: dehyph rest4
              else a :: dehyph (x :: rest2)
            | [] => a :: dehyph (x :: rest2)
          else a :: dehyph (x :: rest2)
        else a :: dehyph (x :: rest2)
      | [] => [a]
    else a :: dehyph rest
termination_by l => l.length
decreasing_by
  all_goals simp only [List.length_cons]
  all_goals try omega
  have hdw := length_dropWhile_le isJsWs rest2
  rw [h4] at hdw
  simp only [List.length_cons] at hdw
  omega

/-- The space/tab class of step 6's regex `[ \t]+`. -/
def isSpaceTab (c : Char) : Bool := c = ' ' ∨ c = '\t'

/-- Step 6, `t.replace(/[ \t]+/g, " ")`: every maximal space/tab run becomes
one space. -/
def collapseSpaceTabRuns : List Char → List Char
  | [] => []
  | [a] => if isSpaceTab a then [' '] else [a]
  | a :: b :: rest =>
    if isSpaceTab a then
      if isSpaceTab b then collapseSpaceTabRuns (b :: rest)
      else ' ' :: collapseSpaceTabRuns (b :: rest)
    else a :: collapseSpaceTabRuns (b :: rest)

/-- Step 7, `t.replace(/\n{3,}/g, "\n\n")`: a maximal run of `k ≥ 3`
newlines loses its first `k - 2`. -/
def collapseNewlineRuns : List Char → List Char
  | [] => []
  | [a] => [a]
  | [a, b] => [a, b]
  | a :: b :: c :: rest =>
    if a = '\n' ∧ b = '\n' ∧ c = '\n' then collapseNewlineRuns (b :: c :: rest)
    else a :: collapseNewlineRuns (b :: c :: rest)

/-- `normalizeExtractedText` (src/unnamed/part_003): the `!text` guard, the
seven rewrite steps in source order, and the final `trim()`. -/
def normalizeExtractedText (t : List Char) : List Char :=
  if t = [] then []
  else jsTrim (collapseNewlineRuns (collapseSpaceTabRuns (dehyph
    (ligFix (stripShy (nbspFix (newlineNorm t)))))))

theorem mem_newlineNorm {c : Char} {l : List Char} (h : c ∈ newlineNorm l) :
    c ∈ l ∨ c = '\n' := by
  induction l using newlineNorm.induct with
  | case1 => simp [newlineNorm] at h
  | case2 rest2 ih =>
    simp [newlineNorm] at h
    rcases h with rfl | h2
    · exact Or.inr rfl
    · rcases ih h2 with hm | he
      · exact Or.inl (by simp [hm])
      · exact Or.inr he
  | case3 a rest ha ih =>
    simp [newlineNorm, ha] at h
    rcases h with rfl | h2
    · exact Or.inr rfl
    · rcases ih h2 with hm | he
      · exact Or.inl (List.mem_cons_of_mem _ hm)
      · exact Or.inr he
  | case4 =>
    simp [newlineNorm] at h
    exact Or.inr h
  | case5 a rest ha ih =>
    rw [newlineNorm.eq_def] at h
    simp [ha] at h
    rcases h with rfl | h2
    · exact Or.inl (by simp)
    · rcases ih h2 with hm | he
      · exact Or.inl (List.mem_cons_of_mem _ hm)
      · exact Or.inr he

theorem newlineNorm_no_cr {l : List Char} : ∀ c ∈ newlineNorm l, c ≠ '\r' := by
  induction l using newlineNorm.induct with
  | case1 => simp [newlineNorm]
  | case2 rest2 ih =>
    simp only [newlineNorm]
    intro c hc
    simp at hc
    rcases hc with rfl | h2
    · decide
    · exact ih c h2
  | case3 a rest ha ih =>
    simp only [newlineNorm, if_pos rfl, if_neg ha]
    intro c hc
    simp [ha] at hc
    rcases hc with rfl | h2
    · decide
    · exact ih c h2
  | case4 =>
    intro c hc
    simp [newlineNorm] at hc
    subst hc
    decide
  | case5 a rest ha ih =>
    intro c hc
    rw [newlineNorm.eq_def] at hc
    simp [ha] at hc
    rcases hc with rfl | h2
    · exact ha
    · exact ih c h2

theorem newlineNorm_id {l : List Char} (h : ∀ c ∈ l, c ≠ '\r') :
    newlineNorm l = l := by
  induction l using newlineNorm.induct with
  | case1 => rfl
  | case2 rest2 ih => exact absurd rfl (h '\r' (by simp))
  | case3 a rest ha ih => exact absurd rfl (h '\r' (by simp))
  | case4 => exact absurd rfl (h '\r' (by simp))
  | case5 a rest ha ih =>
    rw [newlineNorm.eq_def]
    simp only [if_neg ha]
    rw [ih (fun c hc => h c (List.mem_cons_of_mem a hc))]

theorem mem_nbspFix {c : Char} {l : List Char} (h : c ∈ nbspFix l) :
    c ∈ l ∨ c = ' ' := by
  rcases List.mem_map.mp h with ⟨d, hd, hdc⟩
  by_cases hdn : d = ' '
  · right
    rw [← hdc, if_pos hdn]
  · left
    rw [← hdc, if_neg hdn]
    exact hd

theorem nbspFix_no_nbsp {l : List Char} : ∀ c ∈ nbspFix l, c ≠ ' ' := by
  intro c hc
  rcases List.mem_map.mp hc with ⟨d, hd, hdc⟩
  by_cases hdn : d = ' '
  · rw [← hdc, if_pos hdn]
    decide
  · rw [← hdc, if_neg hdn]
    exact hdn

theorem nbspFix_id {l : List Char} (h : ∀ c ∈ l, c ≠ ' ') : nbspFix l = l := by
  induction l with
  | nil => rfl
  | cons a rest ih =>
    show (if a = ' ' then ' ' else a) :: nbspFix rest = a :: rest
    rw [if_neg (h a (by simp)), ih (fun c hc => h c (List.mem_cons_of_mem a hc))]

theorem stripShy_no_shy {l : List Char} : ∀ c ∈ stripShy l, c ≠ '­' := by
  intro c hc
  have := (List.mem_filter.mp hc).2
  simpa using this

theorem mem_stripShy {c : Char} {l : List Char} (h : c ∈ stripShy l) : c ∈ l :=
  (List.mem_filter.mp h).1

theorem stripShy_id {l : List Char} (h : ∀ c ∈ l, c ≠ '­') : stripShy l = l :=
  List.filter_eq_self.mpr (fun a ha => by simpa using h a ha)

theorem mem_expandLig {c d : Char} (h : c ∈ expandLig d) :
    c = d ∨ c = 'f' ∨ c = 'i' ∨ c = 'l' := by
  unfold expandLig at h
  split_ifs at h <;> simp at h <;> tauto

theorem expandLig_no_lig {c d : Char} (h : c ∈ expandLig d) : isLig c = false := by
  unfold expandLig at h
  split_ifs at h with h1 h2 h3 h4 h5 <;> simp at h
  · rcases h with rfl | rfl <;> decide
  · rcases h with rfl | rfl <;> decide
  · rcases h with rfl | rfl <;> decide
  · rcases h with rfl | rfl | rfl <;> decide
  · rcases h with rfl | rfl | rfl <;> decide
  · subst h
    simp [isLig, h1, h2, h3, h4, h5]

theorem mem_ligFix {c : Char} {l : List Char} (h : c ∈ ligFix l) :
    c ∈ l ∨ c = 'f' ∨ c = 'i' ∨ c = 'l' := by
  rcases List.mem_flatMap.mp h with ⟨d, hd, hcd⟩
  rcases mem_expandLig hcd with rfl | hf
  · exact Or.inl hd
  · exact Or.inr hf

theorem ligFix_no_lig {l : List Char} : ∀ c ∈ ligFix l, isLig c = false := by
  intro c hc
  rcases List.mem_flatMap.mp hc with ⟨d, _, hcd⟩
  exact expandLig_no_lig hcd

theorem ligFix_id {l : List Char} (h : ∀ c ∈ l, isLig c = false) : ligFix l = l := by
  induction l with
  | nil => rfl
  | cons a rest ih =>
    have ha := h a (by simp)
    have ha' : ¬ a = 'ﬀ' ∧ ¬ a = 'ﬁ' ∧ ¬ a = 'ﬂ' ∧ ¬ a = 'ﬃ'
        ∧ ¬ a = 'ﬄ' := by
      refine ⟨?_, ?_, ?_, ?_, ?_⟩ <;> intro e <;> rw [e] at ha <;> simp [isLig] at ha
    have he : expandLig a = [a] := by
      unfold expandLig
      rw [if_neg ha'.1, if_neg ha'.2.1, if_neg ha'.2.2.1, if_neg ha'.2.2.2.1,
        if_neg ha'.2.2.2.2]
    show expandLig a ++ ligFix rest = a :: rest
    rw [he, ih (fun c hc => h c (List.mem_cons_of_mem a hc))]
    rfl

theorem dehyph_nil : dehyph [] = [] := by
  rw [dehyph.eq_def]

theorem dehyph_nonletter (a : Char) (rest : List Char)
    (ha : ¬ isAsciiLetter a = true) : dehyph (a :: rest) = a :: dehyph rest := by
  rw [dehyph.eq_def]
  simp [ha]

theorem dehyph_letter_singleton (a : Char) (ha : isAsciiLetter a = true) :
    dehyph [a] = [a] := by
  rw [dehyph.eq_def]
  simp [ha]

theorem dehyph_letter_nodash (a x : Char) (rest2 : List Char)
    (ha : isAsciiLetter a = true) (hx : ¬ x = '-') :
    dehyph (a :: x :: rest2) = a :: dehyph (x :: rest2) := by
  rw [dehyph.eq_def]
  simp [ha, hx]

theorem dehyph_dash_no_nl (a : Char) (rest2 : List Char)
    (ha : isAsciiLetter a = true)
    (hnl : ¬ '\n' ∈ rest2.takeWhile isJsWs) :
    dehyph (a :: '-' :: rest2) = a :: dehyph ('-' :: rest2) := by
  rw [dehyph.eq_def]
  simp [ha, hnl]

theorem dehyph_dash_nl_nil (a : Char) (rest2 : List Char)
    (ha : isAsciiLetter a = true)
    (hnl : '\n' ∈ rest2.takeWhile isJsWs)
    (hdw : rest2.dropWhile isJsWs = []) :
    dehyph (a :: '-' :: rest2) = a :: dehyph ('-' :: rest2) := by
  rw [dehyph.eq_def]
  simp [ha, hnl]
  split
  · rename_i b2 rest42 heq
    rw [hdw] at heq
    cases heq
  · rfl

theorem dehyph_dash_nl_nonletter (a b : Char) (rest2 rest4 : List Char)
    (ha : isAsciiLetter a = true)
    (hnl : '\n' ∈ rest2.takeWhile isJsWs)
    (hdw : rest2.dropWhile isJsWs = b :: rest4)
    (hb : ¬ isAsciiLetter b = true) :
    dehyph (a :: '-' :: rest2) = a :: dehyph ('-' :: rest2) := by
  rw [dehyph.eq_def]
  simp [ha, hnl]
  split
  · rename_i b2 rest42 heq
    rw [hdw] at heq
    cases heq
    rw [if_neg hb]
  · rename_i heq
    rw [hdw] at heq

theorem dehyph_dash_nl_letter (a b : Char) (rest2 rest4 : List Char)
    (ha : isAsciiLetter a = true)
    (hnl : '\n' ∈ rest2.takeWhile isJsWs)
    (hdw : rest2.dropWhile isJsWs = b :: rest4)
    (hb : isAsciiLetter b = true) :
    dehyph (a :: '-' :: rest2) = a :: b :: dehyph rest4 := by
  rw [dehyph.eq_def]
  simp [ha, hnl]
  split
  · rename_i b2 rest42 heq
    rw [hdw] at heq
    cases heq
    rw [if_pos hb]
  · rename_i heq
    rw [hdw] at heq
    exact absurd heq (by simp)

theorem mem_dehyph {l : List Char} : ∀ c ∈ dehyph l, c ∈ l := by
  induction l using dehyph.induct with
  | case1 =>
    rw [dehyph_nil]
    simp
  | case2 a ha rest2 hnl b rest4 hdw hb ih =>
    rw [dehyph_dash_nl_letter _ _ _ _ ha (by simpa using hnl) hdw hb]
    intro c hc
    have hbmem : b ∈ rest2 := by
      have : b ∈ rest2.dropWhile isJsWs := by
        rw [hdw]; simp
      exact (List.dropWhile_suffix isJsWs).mem this
    have hr4 : ∀ d ∈ rest4, d ∈ rest2 := by
      intro d hd
      have : d ∈ rest2.dropWhile isJsWs := by
        rw [hdw]; simp [hd]
      exact (List.dropWhile_suffix isJsWs).mem this
    rcases List.mem_cons.mp hc with rfl | hc2
    · simp
    rcases List.mem_cons.mp hc2 with rfl | hc3
    · simp [hbmem]
    · have := hr4 c (ih c hc3)
      simp [this]
  | case3 a ha rest2 hnl b rest4 hdw hb ih =>
    rw [dehyph_dash_nl_nonletter _ _ _ _ ha (by simpa using hnl) hdw hb]
    intro c hc
    rcases List.mem_cons.mp hc with rfl | hc2
    · simp
    · exact List.mem_cons_of_mem a (ih c hc2)
  | case4 a ha rest2 hnl hdw ih =>
    rw [dehyph_dash_nl_nil _ _ ha (by simpa using hnl) hdw]
    intro c hc
    rcases List.mem_cons.mp hc with rfl | hc2
    · simp
    · exact List.mem_cons_of_mem a (ih c hc2)
  | case5 a ha rest2 hnl ih =>
    rw [dehyph_dash_no_nl _ _ ha (by simpa using hnl)]
    intro c hc
    rcases List.mem_cons.mp hc with rfl | hc2
    · simp
    · exact List.mem_cons_of_mem a (ih c hc2)
  | case6 a ha x rest2 hx ih =>
    rw [dehyph_letter_nodash _ _ _ ha hx]
    intro c hc
    rcases List.mem_cons.mp hc with rfl | hc2
    · simp
    · exact List.mem_cons_of_mem a (ih c hc2)
  | case7 a ha =>
    rw [dehyph_letter_singleton _ ha]
    simp
  | case8 a rest ha ih =>
    rw [dehyph_nonletter _ _ ha]
    intro c hc
    rcases List.mem_cons.mp hc with rfl | hc2
    · simp
    · exact List.mem_cons_of_mem a (ih c hc2)

theorem mem_cST {ch : Char} : ∀ {l : List Char},
    ch ∈ collapseSpaceTabRuns l → ch ∈ l ∨ ch = ' '
  | [], h => by rw [collapseSpaceTabRuns] at h; cases h
  | [a], h => by
    rw [collapseSpaceTabRuns] at h
    by_cases ha : isSpaceTab a
    · rw [if_pos ha] at h
      right
      simpa using h
    · rw [if_neg ha] at h
      left
      simpa using h
  | a :: b :: rest, h => by
    rw [collapseSpaceTabRuns] at h
    by_cases ha : isSpaceTab a
    · rw [if_pos ha] at h
      by_cases hb : isSpaceTab b
      · rw [if_pos hb] at h
        rcases mem_cST h with hm | he
        · exact Or.inl (List.mem_cons_of_mem a hm)
        · exact Or.inr he
      · rw [if_neg hb] at h
        rcases List.mem_cons.mp h with rfl | h2
        · exact Or.inr rfl
        · rcases mem_cST h2 with hm | he
          · exact Or.inl (List.mem_cons_of_mem a hm)
          · exact Or.inr he
    · rw [if_neg ha] at h
      rcases List.mem_cons.mp h with rfl | h2
      · exact Or.inl (by simp)
      · rcases mem_cST h2 with hm | he
        · exact Or.inl (List.mem_cons_of_mem a hm)
        · exact Or.inr he

theorem cST_no_tab : ∀ {l : List Char}, ∀ ch ∈ collapseSpaceTabRuns l, ch ≠ '\t'
  | [], ch, h => by rw [collapseSpaceTabRuns] at h; cases h
  | [a], ch, h => by
    rw [collapseSpaceTabRuns] at h
    by_cases ha : isSpaceTab a
    · rw [if_pos ha] at h
      simp at h
      subst h
      decide
    · rw [if_neg ha] at h
      simp at h
      subst h
      intro he
      exact ha (by simp [isSpaceTab, he])
  | a :: b :: rest, ch, h => by
    rw [collapseSpaceTabRuns] at h
    by_cases ha : isSpaceTab a
    · rw [if_pos ha] at h
      by_cases hb : isSpaceTab b
      · rw [if_pos hb] at h
        exact cST_no_tab ch h
      · rw [if_neg hb] at h
        rcases List.mem_cons.mp h with rfl | h2
        · decide
        · exact cST_no_tab ch h2
    · rw [if_neg ha] at h
      rcases List.mem_cons.mp h with rfl | h2
      · intro he
        exact ha (by simp [isSpaceTab, he])
      · exact cST_no_tab ch h2

theorem cST_head : ∀ (b : Char) (rest : List Char),
    (collapseSpaceTabRuns (b :: rest)).head?
      = some (if isSpaceTab b then ' ' else b)
  | b, [] => by
    rw [collapseSpaceTabRuns]
    by_cases hb : isSpaceTab b
    · rw [if_pos hb, if_pos hb]
      rfl
    · rw [if_neg hb, if_neg hb]
      rfl
  | b, c :: rest' => by
    rw [collapseSpaceTabRuns]
    by_cases hb : isSpaceTab b
    · rw [if_pos hb, if_pos hb]
      by_cases hc : isSpaceTab c
      · rw [if_pos hc, cST_head c rest', if_pos hc]
      · rw [if_neg hc]
        rfl
    · rw [if_neg hb, if_neg hb]
      rfl

theorem cST_chain : ∀ (l : List Char),
    List.Chain' (fun x y => ¬(x = ' ' ∧ y = ' ')) (collapseSpaceTabRuns l)
  | [] => by
    rw [collapseSpaceTabRuns]
    exact List.chain'_nil
  | [a] => by
    rw [collapseSpaceTabRuns]
    by_cases ha : isSpaceTab a
    · rw [if_pos ha]
      exact List.chain'_singleton _
    · rw [if_neg ha]
      exact List.chain'_singleton _
  | a :: b :: rest => by
    rw [collapseSpaceTabRuns]
    by_cases ha : isSpaceTab a
    · rw [if_pos ha]
      by_cases hb : isSpaceTab b
      · rw [if_pos hb]
        exact cST_chain (b :: rest)
      · rw [if_neg hb]
        refine List.chain'_cons'.mpr ⟨?_, cST_chain (b :: rest)⟩
        intro y hy
        rw [cST_head b rest, if_neg hb] at hy
        rintro ⟨_, rfl⟩
        have hb' : b = ' ' := Option.some.inj (Option.mem_def.mp hy)
        exact hb (by simp [isSpaceTab, hb'])
    · rw [if_neg ha]
      refine List.chain'_cons'.mpr ⟨?_, cST_chain (b :: rest)⟩
      intro y _
      rintro ⟨rfl, _⟩
      exact ha (by simp [isSpaceTab])

theorem cST_id : ∀ (l : List Char), (∀ ch ∈ l, ch ≠ '\t') →
    List.Chain' (fun x y => ¬(x = ' ' ∧ y = ' ')) l →
    collapseSpaceTabRuns l = l
  | [], _, _ => by rw [collapseSpaceTabRuns]
  | [a], h1, _ => by
    rw [collapseSpaceTabRuns]
    by_cases ha : isSpaceTab a
    · rw [if_pos ha]
      have : a = ' ' := by
        rcases (by simpa [isSpaceTab] using ha : a = ' ' ∨ a = '\t') with rfl | rfl
        · rfl
        · exact absurd rfl (h1 '\t' (by simp))
      rw [this]
    · rw [if_neg ha]
  | a :: b :: rest, h1, h2 => by
    rw [collapseSpaceTabRuns]
    by_cases ha : isSpaceTab a
    · have haSp : a = ' ' := by
        rcases (by simpa [isSpaceTab] using ha : a = ' ' ∨ a = '\t') with rfl | rfl
        · rfl
        · exact absurd rfl (h1 '\t' (by simp))
      by_cases hb : isSpaceTab b
      · exfalso
        have hbSp : b = ' ' := by
          rcases (by simpa [isSpaceTab] using hb : b = ' ' ∨ b = '\t') with rfl | rfl
          · rfl
          · exact absurd rfl (h1 '\t' (by simp))
        exact (List.chain'_cons.mp h2).1 ⟨haSp, hbSp⟩
      · rw [if_pos ha, if_neg hb, haSp,
          cST_id (b :: rest) (fun c hc => h1 c (List.mem_cons_of_mem a hc))
            (List.chain'_cons.mp h2).2]
    · rw [if_neg ha,
        cST_id (b :: rest) (fun c hc => h1 c (List.mem_cons_of_mem a hc))
          (List.chain'_cons.mp h2).2]

theorem mem_cNL {ch : Char} : ∀ {l : List Char},
    ch ∈ collapseNewlineRuns l → ch ∈ l
  | [], h => by rwa [collapseNewlineRuns] at h
  | [a], h => by rwa [collapseNewlineRuns] at h
  | [a, b], h => by rwa [collapseNewlineRuns] at h
  | a :: b :: c :: rest, h => by
    rw [collapseNewlineRuns] at h
    by_cases ht : a = '\n' ∧ b = '\n' ∧ c = '\n'
    · rw [if_pos ht] at h
      exact List.mem_cons_of_mem a (mem_cNL h)
    · rw [if_neg ht] at h
      rcases List.mem_cons.mp h with rfl | h2
      · simp
      · exact List.mem_cons_of_mem a (mem_cNL h2)

theorem cNL_head : ∀ (l : List Char),
    (collapseNewlineRuns l).head? = l.head?
  | [] => rfl
  | [a] => by rw [collapseNewlineRuns]
  | [a, b] => by rw [collapseNewlineRuns]
  | a :: b :: c :: rest => by
    rw [collapseNewlineRuns]
    by_cases ht : a = '\n' ∧ b = '\n' ∧ c = '\n'
    · rw [if_pos ht, cNL_head (b :: c :: rest)]
      simp [ht.1, ht.2.1]
    · rw [if_neg ht]
      rfl

theorem cNL_chain {S : Char → Char → Prop} : ∀ (l : List Char),
    List.Chain' S l → List.Chain' S (collapseNewlineRuns l)
  | [], h => by rwa [collapseNewlineRuns]
  | [a], h => by rwa [collapseNewlineRuns]
  | [a, b], h => by rwa [collapseNewlineRuns]
  | a :: b :: c :: rest, h => by
    rw [collapseNewlineRuns]
    by_cases ht : a = '\n' ∧ b = '\n' ∧ c = '\n'
    · rw [if_pos ht]
      exact cNL_chain (b :: c :: rest) h.tail
    · rw [if_neg ht]
      refine List.chain'_cons'.mpr ⟨?_, cNL_chain (b :: c :: rest) h.tail⟩
      intro y hy
      rw [cNL_head (b :: c :: rest)] at hy
      have hyb : b = y := by simpa using hy
      subst hyb
      exact (List.chain'_cons.mp h).1

/-- No three consecutive newline characters occur in the list. -/
def noTriple : List Char → Prop
  | [] => True
  | [_] => True
  | [_, _] => True
  | a :: b :: c :: rest =>
    ¬(a = '\n' ∧ b = '\n' ∧ c = '\n') ∧ noTriple (b :: c :: rest)

theorem noTriple_cons {a : Char} : ∀ {t : List Char}, noTriple (a :: t) → noTriple t
  | [], _ => trivial
  | [_], _ => trivial
  | _ :: _ :: _, h => h.2

theorem noTriple_append_left : ∀ (s m : List Char), noTriple (s ++ m) → noTriple m
  | [], m, h => h
  | a :: s', m, h => noTriple_append_left s' m (noTriple_cons h)

theorem noTriple_append_right : ∀ (m t : List Char), noTriple (m ++ t) → noTriple m
  | [], _, _ => trivial
  | [_], _, _ => trivial
  | [_, _], _, _ => trivial
  | a :: b :: c :: rest, t, h =>
    ⟨h.1, noTriple_append_right (b :: c :: rest) t h.2⟩

theorem noTriple_of_within {m l : List Char} (hm : m <:+: l) (h : noTriple l) :
    noTriple m := by
  rcases hm with ⟨s, t, rfl⟩
  rw [List.append_assoc] at h
  exact noTriple_append_right m t (noTriple_append_left s (m ++ t) h)

theorem cNL_noTriple : ∀ (l : List Char), noTriple (collapseNewlineRuns l)
  | [] => by rw [collapseNewlineRuns]; trivial
  | [a] => by rw [collapseNewlineRuns]; trivial
  | [a, b] => by rw [collapseNewlineRuns]; trivial
  | a :: b :: c :: rest => by
    rw [collapseNewlineRuns]
    by_cases ht : a = '\n' ∧ b = '\n' ∧ c = '\n'
    · rw [if_pos ht]
      exact cNL_noTriple (b :: c :: rest)
    · rw [if_neg ht]
      have hY := cNL_noTriple (b :: c :: rest)
      by_cases hab : a = '\n' ∧ b = '\n'
      · have hc : ¬ c = '\n' := fun hcc => ht ⟨hab.1, hab.2, hcc⟩
        cases rest with
        | nil =>
          rw [show collapseNewlineRuns [b, c] = [b, c] from by
            rw [collapseNewlineRuns]]
          exact ⟨ht, trivial⟩
        | cons r1 rest1 =>
          have hstep : collapseNewlineRuns (b :: c :: r1 :: rest1)
              = b :: collapseNewlineRuns (c :: r1 :: rest1) := by
            rw [collapseNewlineRuns, if_neg (fun h3 => hc h3.2.1)]
          rw [hstep]
          have hZ := cNL_noTriple (c :: r1 :: rest1)
          cases hzz : collapseNewlineRuns (c :: r1 :: rest1) with
          | nil => trivial
          | cons z Z' =>
            have hz : z = c := by
              have := cNL_head (c :: r1 :: rest1)
              rw [hzz] at this
              exact Option.some.inj this
            subst hz
            refine ⟨fun h3 => hc h3.2.2, ?_⟩
            cases Z' with
            | nil => trivial
            | cons w W =>
              rw [hzz] at hZ
              exact ⟨fun h3 => hc h3.2.1, hZ⟩
      · cases hzz : collapseNewlineRuns (b :: c :: rest) with
        | nil => trivial
        | cons z Z' =>
          have hz : z = b := by
            have := cNL_head (b :: c :: rest)
            rw [hzz] at this
            exact Option.some.inj this
          subst hz
          cases Z' with
          | nil => trivial
          | cons y2 Y'' =>
            rw [hzz] at hY
            exact ⟨fun h3 => hab ⟨h3.1, h3.2.1⟩, hY⟩

theorem cNL_id : ∀ (l : List Char), noTriple l → collapseNewlineRuns l = l
  | [], _ => by rw [collapseNewlineRuns]
  | [a], _ => by rw [collapseNewlineRuns]
  | [a, b], _ => by rw [collapseNewlineRuns]
  | a :: b :: c :: rest, h => by
    rw [collapseNewlineRuns, if_neg h.1, cNL_id (b :: c :: rest) h.2]

theorem dropWhile_head_not (p : Char → Bool) :
    ∀ (l : List Char) {a : Char} {t : List Char},
      l.dropWhile p = a :: t → ¬ p a = true
  | [], a, t, h => by cases h
  | x :: xs, a, t, h => by
    by_cases hx : p x
    · rw [List.dropWhile_cons_of_pos hx] at h
      exact dropWhile_head_not p xs h
    · rw [List.dropWhile_cons_of_neg hx] at h
      cases h
      exact hx

theorem dropWhile_idem (p : Char → Bool) (l : List Char) :
    (l.dropWhile p).dropWhile p = l.dropWhile p := by
  cases h : l.dropWhile p with
  | nil => rfl
  | cons a t =>
    exact List.dropWhile_cons_of_neg (dropWhile_head_not p l h)

theorem chain'_of_within {α : Type} {S : α → α → Prop} {m l : List α}
    (hm : m <:+: l) (h : List.Chain' S l) : List.Chain' S m := by
  rcases hm with ⟨s, t, rfl⟩
  exact (List.chain'_append.mp (List.chain'_append.mp h).1).2.1

theorem jsTrim_within (l : List Char) : jsTrim l <:+: l := by
  unfold jsTrim
  have h1 : (((l.dropWhile isJsWs).reverse.dropWhile isJsWs).reverse)
      <+: l.dropWhile isJsWs := by
    rw [← List.reverse_suffix]
    simpa using @List.dropWhile_suffix _ ((l.dropWhile isJsWs).reverse) isJsWs
  exact h1.isInfix.trans (List.dropWhile_suffix isJsWs).isInfix

theorem jsTrim_idem (l : List Char) : jsTrim (jsTrim l) = jsTrim l := by
  have hlt : (jsTrim l).dropWhile isJsWs = jsTrim l := by
    cases h : jsTrim l with
    | nil => rfl
    | cons a t =>
      have hpre : jsTrim l <+: l.dropWhile isJsWs := by
        unfold jsTrim
        rw [← List.reverse_suffix]
        simpa using @List.dropWhile_suffix _ ((l.dropWhile isJsWs).reverse) isJsWs
      rcases hpre with ⟨rest, hrest⟩
      rw [h] at hrest
      have hna : ¬ isJsWs a = true :=
        dropWhile_head_not isJsWs l (by rw [← hrest]; rfl)
      exact List.dropWhile_cons_of_neg hna
  have hstep : jsTrim (jsTrim l) = ((jsTrim l).reverse.dropWhile isJsWs).reverse := by
    show ((((jsTrim l).dropWhile isJsWs).reverse).dropWhile isJsWs).reverse = _
    rw [hlt]
  rw [hstep]
  show ((((l.dropWhile isJsWs).reverse.dropWhile isJsWs).reverse).reverse.dropWhile
    isJsWs).reverse = jsTrim l
  rw [List.reverse_reverse, dropWhile_idem]
  rfl

/-- C7, counterexample: the normalizer is not idempotent.  On
`"a-\nb-\nc"` the first pass de-hyphenates the first wrap (non-overlapping
matches resume after the replacement, so the second `-` is skipped), giving
`"ab-\nc"`; the second pass then de-hyphenates again, giving `"abc"`. -/
theorem normalize_not_idempotent :
    normalizeExtractedText
        (normalizeExtractedText ['a', '-', '\n', 'b', '-', '\n', 'c'])
      ≠ normalizeExtractedText ['a', '-', '\n', 'b', '-', '\n', 'c'] := by
  have hd1 : dehyph ['a', '-', '\n', 'b', '-', '\n', 'c']
      = ['a', 'b', '-', '\n', 'c'] := by
    rw [dehyph_dash_nl_letter 'a' 'b' ['\n', 'b', '-', '\n', 'c'] ['-', '\n', 'c']
        (by decide) (by decide) (by decide) (by decide),
      dehyph_nonletter '-' ['\n', 'c'] (by decide),
      dehyph_nonletter '\n' ['c'] (by decide),
      dehyph_letter_singleton 'c' (by decide)]
  have h1 : normalizeExtractedText ['a', '-', '\n', 'b', '-', '\n', 'c']
      = ['a', 'b', '-', '\n', 'c'] := by
    unfold normalizeExtractedText
    rw [if_neg (by decide)]
    have hin : ligFix (stripShy (nbspFix
        (newlineNorm ['a', '-', '\n', 'b', '-', '\n', 'c'])))
        = ['a', '-', '\n', 'b', '-', '\n', 'c'] := by decide
    rw [hin, hd1]
    decide
  have hd2 : dehyph ['a', 'b', '-', '\n', 'c'] = ['a', 'b', 'c'] := by
    rw [dehyph_letter_nodash 'a' 'b' ['-', '\n', 'c'] (by decide) (by decide),
      dehyph_dash_nl_letter 'b' 'c' ['\n', 'c'] [] (by decide) (by decide)
        (by decide) (by decide),
      dehyph_nil]
  have h2 : normalizeExtractedText ['a', 'b', '-', '\n', 'c']
      = ['a', 'b', 'c'] := by
    unfold normalizeExtractedText
    rw [if_neg (by decide)]
    have hin : ligFix (stripShy (nbspFix (newlineNorm ['a', 'b', '-', '\n', 'c'])))
        = ['a', 'b', '-', '\n', 'c'] := by decide
    rw [hin, hd2]
    decide
  rw [h1, h2]
  decide

/-- C7 (amended): the normalizer is idempotent on every text whose normalized
form has nothing left for the de-hyphenation pass to rewrite
(`dehyph (normalize t) = normalize t`): one pass already removes every `\r`,
NBSP, soft hyphen, ligature and tab, leaves no double space and no triple
newline, and trims the ends, so every step but de-hyphenation is the
identity on a second pass.  Full idempotence fails only because
non-overlapping replacement can leave a fresh hyphen-wrap pattern behind
(see the counterexample `"a-\nb-\nc"`). -/
theorem normalize_idempotent_of_dehyph_fixed (t : List Char)
    (hfix : dehyph (normalizeExtractedText t) = normalizeExtractedText t) :
    normalizeExtractedText (normalizeExtractedText t)
      = normalizeExtractedText t := by
  by_cases ht : t = []
  · subst ht
    rfl
  · have huform : normalizeExtractedText t
        = jsTrim (collapseNewlineRuns (collapseSpaceTabRuns (dehyph
            (ligFix (stripShy (nbspFix (newlineNorm t))))))) := by
      unfold normalizeExtractedText
      rw [if_neg ht]
    set u := normalizeExtractedText t with hu
    have hwithin : u <:+: collapseNewlineRuns (collapseSpaceTabRuns (dehyph
        (ligFix (stripShy (nbspFix (newlineNorm t)))))) := by
      rw [huform]
      exact jsTrim_within _
    have hmcst : ∀ c ∈ u, c ∈ collapseSpaceTabRuns (dehyph
        (ligFix (stripShy (nbspFix (newlineNorm t))))) := by
      intro c hc
      exact mem_cNL (hwithin.sublist.mem hc)
    have hmY : ∀ c ∈ u,
        c ∈ ligFix (stripShy (nbspFix (newlineNorm t))) ∨ c = ' ' := by
      intro c hc
      exact (mem_cST (hmcst c hc)).imp_left (mem_dehyph c)
    have hmS : ∀ c ∈ u, c ∈ stripShy (nbspFix (newlineNorm t)) ∨
        c = ' ' ∨ c = 'f' ∨ c = 'i' ∨ c = 'l' := by
      intro c hc
      rcases hmY c hc with hY | hsp
      · rcases mem_ligFix hY with hm | hf
        · exact Or.inl hm
        · exact Or.inr (Or.inr hf)
      · exact Or.inr (Or.inl hsp)
    have hP1 : ∀ c ∈ u, c ≠ '\r' := by
      intro c hc
      rcases hmS c hc with hm | rfl | rfl | rfl | rfl
      · rcases mem_nbspFix (mem_stripShy hm) with hm2 | rfl
        · exact newlineNorm_no_cr c hm2
        · decide
      · decide
      · decide
      · decide
      · decide
    have hP2 : ∀ c ∈ u, c ≠ '\u00A0' := by
      intro c hc
      rcases hmS c hc with hm | rfl | rfl | rfl | rfl
      · exact nbspFix_no_nbsp c (mem_stripShy hm)
      · decide
      · decide
      · decide
      · decide
    have hP3 : ∀ c ∈ u, c ≠ '\u00AD' := by
      intro c hc
      rcases hmS c hc with hm | rfl | rfl | rfl | rfl
      · exact stripShy_no_shy c hm
      · decide
      · decide
      · decide
      · decide
    have hP4 : ∀ c ∈ u, isLig c = false := by
      intro c hc
      rcases hmY c hc with hY | rfl
      · exact ligFix_no_lig c hY
      · decide
    have hP5 : ∀ c ∈ u, c ≠ '\t' := by
      intro c hc
      exact cST_no_tab c (hmcst c hc)
    have hP6 : List.Chain' (fun x y => ¬(x = ' ' ∧ y = ' ')) u :=
      chain'_of_within hwithin (cNL_chain _ (cST_chain _))
    have hP7 : noTriple u :=
      noTriple_of_within hwithin (cNL_noTriple _)
    show normalizeExtractedText u = u
    by_cases hu0 : u = []
    · rw [hu0]
      rfl
    · unfold normalizeExtractedText
      rw [if_neg hu0, newlineNorm_id hP1, nbspFix_id hP2, stripShy_id hP3,
        ligFix_id hP4, hfix, cST_id u hP5 hP6, cNL_id u hP7, huform]
      exact jsTrim_idem _

/-- C7, witness: the conditional idempotence theorem at the hyphen-free text
`"hi"`, whose normalized form `dehyph` fixes. -/
theorem normalize_idempotent_witness :
    normalizeExtractedText (normalizeExtractedText ['h', 'i'])
      = normalizeExtractedText ['h', 'i'] := by
  have hd : dehyph ['h', 'i'] = ['h', 'i'] := by
    rw [dehyph_letter_nodash 'h' 'i' [] (by decide) (by decide),
      dehyph_letter_singleton 'i' (by decide)]
  have hn : normalizeExtractedText ['h', 'i'] = ['h', 'i'] := by
    unfold normalizeExtractedText
    rw [if_neg (by decide)]
    have hin : ligFix (stripShy (nbspFix (newlineNorm ['h', 'i'])))
        = ['h', 'i'] := by decide
    rw [hin, hd]
    decide
  exact normalize_idempotent_of_dehyph_fixed ['h', 'i'] (by rw [hn, hd])

end RAG
